import Mathlib

/-!
# simpleshell.c : process launch, pipeline engine, signal relay, dispatcher

A shallow embedding of `src/simpleshell.c`.

* C strings are `String`; a null-terminated `char *args[]` is the list of its tokens
  together with whatever lies in the array behind the sentinel (`Env.junk`).
* The kernel is modelled by a per-process descriptor table (`FdTable`) with a limit on
  descriptor numbers, by the POSIX rule that `pipe` hands out the two lowest unused
  descriptors and fails when they do not fit under the limit, and by oracles for the
  results of `fork` and `kill` and for the other failures of `pipe`.
* Every loop of the source is a recursive function on an explicit iteration budget;
  running out of budget is `none`, and the theorems show it never happens.
-/

namespace SimpleShell

/-! ## Kernel model: descriptor tables -/

/-- What a descriptor refers to: a file the shell already had open when the function was
entered, or one end of the pipe created by the `pipe()` call number `pipe`. -/
inductive FdObj where
  | inherited (fd : Nat)
  | pipeRead (pipe : Nat)
  | pipeWrite (pipe : Nat)
  deriving DecidableEq, Repr

/-- A process descriptor table: position `fd` holds what descriptor `fd` refers to, or
`none` when the descriptor is not open. -/
abbrev FdTable := List (Option FdObj)

/-- The object behind descriptor `fd`, `none` when `fd` is not open. -/
def FdTable.lookup (t : FdTable) (fd : Nat) : Option FdObj :=
  (t[fd]?).join

/-- Make descriptor `fd` refer to `o` (growing the table when needed). -/
def FdTable.install (t : FdTable) (fd : Nat) (o : FdObj) : FdTable :=
  if fd < t.length then t.set fd (some o)
  else t ++ List.replicate (fd - t.length) none ++ [some o]

/-- The lowest-numbered descriptor that is not open. -/
def FdTable.lowestFree (t : FdTable) : Nat :=
  t.findIdx (fun e => e.isNone)

/-- The table after descriptor `fd` has been released. -/
def FdTable.release (t : FdTable) (fd : Nat) : FdTable :=
  t.set fd none

/-- The open descriptors, in increasing order. -/
def FdTable.openFds (t : FdTable) : List Nat :=
  (List.range t.length).filter (fun fd => (t.lookup fd).isSome)

/-- The three standard streams, as the interactive shell holds them. -/
def stdio : FdTable :=
  [some (.inherited 0), some (.inherited 1), some (.inherited 2)]

def STDIN_FILENO : Nat := 0

def STDOUT_FILENO : Nat := 1

/-- The call `pipe(int fd[2])`, number `p` of the process, in a process whose descriptor
numbers must stay below `nofile` (RLIMIT_NOFILE). The read end gets the lowest free
descriptor, the write end the next one (POSIX lowest-available rule). When one of the two
does not fit below `nofile` (EMFILE), or when `kernelOk` is false (ENFILE, ENOMEM), the
call returns -1 and touches neither the array nor the table: `none`. Otherwise the result
is `(fd[0], fd[1])` with the new table. -/
def sys_pipe (nofile : Nat) (kernelOk : Bool) (t : FdTable) (p : Nat) :
    Option ((Nat × Nat) × FdTable) :=
  let r := t.lowestFree
  let t1 := t.install r (.pipeRead p)
  let w := t1.lowestFree
  if kernelOk = true ∧ r < nofile ∧ w < nofile then
    some ((r, w), t1.install w (.pipeWrite p))
  else none

/-- One descriptor-consuming system call as it happened: the descriptor value the program
passed (`none` when it read an array slot no `pipe()` had filled yet), the target
descriptor for `dup2` (unused for `close`), and what the passed descriptor referred to in
the calling process at that moment (`none` when it was not open: the call fails with
EBADF). -/
structure FdCall where
  src : Option Nat
  target : Nat
  found : Option FdObj
  deriving DecidableEq, Repr

/-- The call `dup2(src, target)` in a process with table `t`. The program only uses the
targets 0 and 1, which lie below every descriptor limit under which a `pipe()` call can
have succeeded, so the limit plays no part here. -/
def sys_dup2 (t : FdTable) (src : Option Nat) (target : Nat) : FdTable × FdCall :=
  match src with
  | none => (t, ⟨none, target, none⟩)
  | some fd =>
    match t.lookup fd with
    | none => (t, ⟨some fd, target, none⟩)
    | some o => (t.install target o, ⟨some fd, target, some o⟩)

/-- The call `close(src)` in a process with table `t`. -/
def sys_close (t : FdTable) (src : Option Nat) : FdTable × FdCall :=
  match src with
  | none => (t, ⟨none, 0, none⟩)
  | some fd =>
    match t.lookup fd with
    | none => (t, ⟨some fd, 0, none⟩)
    | some o => (t.release fd, ⟨some fd, 0, some o⟩)

/-- What `fork()` gave the parent: failure (`-1`) or the id of the new child. -/
inductive ForkResult where
  | failed
  | child (pid : Nat)
  deriving DecidableEq, Repr

/-- The value `fork()` returns in the parent, as a C `pid_t`. -/
def ForkResult.toInt : ForkResult → Int
  | .failed => -1
  | .child p => (p : Int)

/-- The environment of one call: the outcome of the fork of each loop round, the contents
of the token array behind its null sentinel (stale tokens of earlier lines), whether the
kernel can serve the `pipe()` call of each round at all, and the limit on the descriptor
numbers of the shell process (RLIMIT_NOFILE). -/
structure Env where
  forkRes : Nat → ForkResult
  junk : Nat → Option String
  pipeOk : Nat → Bool
  nofile : Nat

/-- Modelled from the spec: the globals declared in `util.h`, which is not among the
sources. ForegroundJob is `pid` (the id `signalHandler_int` signals) and
PromptSuppressionFlag is `no_reprint_prmpt`; `main` starts them at `-10` and `0`. -/
structure Globals where
  pid : Int
  no_reprint_prmpt : Int
  deriving DecidableEq, Repr

/-- The entry `args[j]` of the token array `tokens, NULL, junk...`; `none` is the NULL pointer. -/
def argAt (env : Env) (tokens : List String) (j : Nat) : Option String :=
  if j < tokens.length then tokens[j]?
  else if j = tokens.length then none
  else env.junk (j - tokens.length - 1)

/-! ## pipeHandler (lines 155-292) -/

/-- The child of one pipeline stage, up to its `execvp`: the `dup2` calls it made, its
descriptor table when it calls `execvp`, and the argument vector it passes. -/
structure ChildRun where
  dups : List FdCall
  fds : FdTable
  argv : List String
  deriving DecidableEq, Repr

/-- One round of the main loop: the stage index `i`, the `command` vector built for it,
the descriptors its `pipe()` call returned (`none` when the call failed), the result of
its `fork()`, the child (when the fork succeeded) and the `close` calls of the parent in
that round. -/
structure StageRun where
  index : Nat
  command : List String
  pipeFds : Option (Nat × Nat)
  fork : ForkResult
  child : Option ChildRun
  closes : List FdCall
  deriving DecidableEq, Repr

/-- The locals of `pipeHandler` that live across rounds, with the descriptor table of the
shell process. `filedes` and `filedes2` are uninitialised (`none`) until a `pipe()` call
fills them; the local `pid` (line 164) likewise. -/
structure PState where
  filedes : Option (Nat × Nat)
  filedes2 : Option (Nat × Nat)
  fds : FdTable
  pid : Option Int
  deriving DecidableEq, Repr

/-- Read `slot[0]`. -/
def rd (slot : Option (Nat × Nat)) : Option Nat := slot.map Prod.fst

/-- Read `slot[1]`. -/
def wr (slot : Option (Nat × Nat)) : Option Nat := slot.map Prod.snd

/-- Lines 177-182: `while (args[l] != NULL) { if (strcmp(args[l],";") == 0) num_cmds++; l++; }`.
Arguments: budget, `l`, `num_cmds`. -/
def countLoop (env : Env) (tokens : List String) : Nat → Nat → Nat → Option Nat
  | 0, _, _ => none
  | fuel + 1, l, num_cmds =>
    match argAt env tokens l with
    | none => some num_cmds
    | some tok => countLoop env tokens fuel (l + 1) (if tok = ";" then num_cmds + 1 else num_cmds)

/-- Lines 192-203, the inner loop that fills `command`. Arguments: budget, `j`, and the
entries `command[0..k)` written so far (`k` is their number). Result: `j`, the entries of
`command`, and whether `end` was set to 1. `strcmp` on a NULL pointer is undefined
(`none`). -/
def scanCommand (env : Env) (tokens : List String) :
    Nat → Nat → List String → Option (Nat × List String × Bool)
  | 0, _, _ => none
  | fuel + 1, j, command =>
    match argAt env tokens j with
    | none => none
    | some tok =>
      if tok ≠ ";" then
        if argAt env tokens (j + 1) = none then some (j + 1, command ++ [tok], true)
        else scanCommand env tokens fuel (j + 1) (command ++ [tok])
      else some (j, command, false)

/-- Lines 233-266: what the child of stage `i` does with the state it inherits. -/
def pipeChild (num_cmds i : Nat) (command : List String) (s : PState) : ChildRun :=
  if i = 0 then
    let r := sys_dup2 s.fds (wr s.filedes2) STDOUT_FILENO
    ⟨[r.2], r.1, command⟩
  else if i = num_cmds - 1 then
    if num_cmds % 2 ≠ 0 then
      let r := sys_dup2 s.fds (rd s.filedes) STDIN_FILENO
      ⟨[r.2], r.1, command⟩
    else
      let r := sys_dup2 s.fds (rd s.filedes2) STDIN_FILENO
      ⟨[r.2], r.1, command⟩
  else
    if i % 2 ≠ 0 then
      let r1 := sys_dup2 s.fds (rd s.filedes2) STDIN_FILENO
      let r2 := sys_dup2 r1.1 (wr s.filedes) STDOUT_FILENO
      ⟨[r1.2, r2.2], r2.1, command⟩
    else
      let r1 := sys_dup2 s.fds (rd s.filedes) STDIN_FILENO
      let r2 := sys_dup2 r1.1 (wr s.filedes2) STDOUT_FILENO
      ⟨[r1.2, r2.2], r2.1, command⟩

/-- Lines 268-286, "CLOSING DESCRIPTORS ON PARENT": the parent table afterwards and the
`close` calls made. -/
def parentCloses (num_cmds i : Nat) (s : PState) : FdTable × List FdCall :=
  if i = 0 then
    let r := sys_close s.fds (wr s.filedes2)
    (r.1, [r.2])
  else if i = num_cmds - 1 then
    if num_cmds % 2 ≠ 0 then
      let r := sys_close s.fds (rd s.filedes)
      (r.1, [r.2])
    else
      let r := sys_close s.fds (rd s.filedes2)
      (r.1, [r.2])
  else
    if i % 2 ≠ 0 then
      let r1 := sys_close s.fds (rd s.filedes2)
      let r2 := sys_close r1.1 (wr s.filedes)
      (r2.1, [r1.2, r2.2])
    else
      let r1 := sys_close s.fds (rd s.filedes)
      let r2 := sys_close r1.1 (wr s.filedes2)
      (r2.1, [r1.2, r2.2])

/-- Lines 222-231: the parent after a failed `fork()`, just before its `return`. -/
def forkFailCloses (num_cmds i : Nat) (s : PState) : FdTable × List FdCall :=
  if i ≠ num_cmds - 1 then
    if i % 2 ≠ 0 then
      let r := sys_close s.fds (wr s.filedes)
      (r.1, [r.2])
    else
      let r := sys_close s.fds (wr s.filedes2)
      (r.1, [r.2])
  else (s.fds, [])

/-- Lines 214-218: `pipe(filedes)` for odd `i`, `pipe(filedes2)` for even `i`. The return
value of `pipe` is not looked at: when the call fails the slot keeps what it held (the
pair of two rounds before, or nothing) and the round goes on. -/
def openPipe (env : Env) (i : Nat) (s : PState) : PState :=
  match sys_pipe env.nofile (env.pipeOk i) s.fds i with
  | none => s
  | some r =>
    if i % 2 ≠ 0 then { s with filedes := some r.1, fds := r.2 }
    else { s with filedes2 := some r.1, fds := r.2 }

/-- Lines 214-290: the body of one round once `command` is built, for a given result of
`fork()`. The state returned is the one of the parent (at its `return` when the fork
failed, before `i++` otherwise). -/
def pipeRound (env : Env) (fr : ForkResult) (num_cmds i : Nat) (command : List String)
    (s : PState) : StageRun × PState :=
  let s1 := openPipe env i s
  let s2 := { s1 with pid := some fr.toInt }
  let pfds := (sys_pipe env.nofile (env.pipeOk i) s.fds i).map Prod.fst
  match fr with
  | .failed =>
    let r := forkFailCloses num_cmds i s2
    (⟨i, command, pfds, fr, none, r.2⟩, { s2 with fds := r.1 })
  | .child _ =>
    let c := pipeChild num_cmds i command s2
    let r := parentCloses num_cmds i s2
    (⟨i, command, pfds, fr, some c, r.2⟩, { s2 with fds := r.1 })

/-- Lines 188-291, the main loop. Arguments: budget, `i`, `j`, `end`, the state. Result:
the rounds run from here on and the state at return. -/
def pipeLoop (env : Env) (tokens : List String) (num_cmds : Nat) :
    Nat → Nat → Nat → Bool → PState → Option (List StageRun × PState)
  | 0, _, _, _, _ => none
  | fuel + 1, i, j, end_, s =>
    if (argAt env tokens j).isSome && !end_ then
      match scanCommand env tokens (tokens.length + 1) j [] with
      | none => none
      | some (j1, command, e) =>
        let run := pipeRound env (env.forkRes i) num_cmds i command s
        match env.forkRes i with
        | .failed => some ([run.1], run.2)
        | .child _ =>
          match pipeLoop env tokens num_cmds fuel (i + 1) (j1 + 1) e run.2 with
          | none => none
          | some (runs, s3) => some (run.1 :: runs, s3)
    else some ([], s)

/-- What a call of `pipeHandler` did: the value of `num_cmds`, the rounds of the main loop
in order, the descriptor table of the shell at return, the last value of the local `pid`,
and the globals at return. -/
structure Outcome where
  num_cmds : Nat
  stages : List StageRun
  fds : FdTable
  localPid : Option Int
  globals : Globals
  deriving DecidableEq, Repr

/-- The function `void pipeHandler(char *args[])`, run by the shell with globals `g` and descriptor
table `fds`. Its `pid` is the local of line 164, which hides the global of that name: no
statement of the function writes a global. -/
def pipeHandler (env : Env) (g : Globals) (fds : FdTable) (tokens : List String) :
    Option Outcome :=
  match countLoop env tokens (tokens.length + 1) 0 0 with
  | none => none
  | some n =>
    let num_cmds := n + 1
    match pipeLoop env tokens num_cmds (tokens.length + 2) 0 0 false ⟨none, none, fds, none⟩ with
    | none => none
    | some (runs, s) => some ⟨num_cmds, runs, s.fds, s.pid, g⟩

/-! ## launchProg (lines 112-149) -/

/-- How a process treats a signal. -/
inductive Disposition where
  | default
  | ignore
  | handler (name : String)
  deriving DecidableEq, Repr

/-- The parts of a process that `launchProg` touches in the child: its disposition for
SIGINT and its environment variables. -/
structure Proc where
  sigint : Disposition
  environ : List (String × String)
  deriving DecidableEq, Repr

/-- The constant `SIG_IGN` of `signal.h`. -/
def SIG_IGN : Disposition := .ignore

/-- The call `signal(SIGINT, d)`. -/
def sys_signal_SIGINT (p : Proc) (d : Disposition) : Proc :=
  { p with sigint := d }

/-- The call `setenv(name, value, 1)`: overwrite or add the variable. -/
def sys_setenv (p : Proc) (name value : String) : Proc :=
  { p with environ := (name, value) :: p.environ.filter (fun kv => kv.1 ≠ name) }

/-- The child of `launchProg` at the moment it calls `execvp(args[0], args)`. -/
structure ExecState where
  proc : Proc
  argv : List String
  deriving DecidableEq, Repr

/-- Lines 120-134, the child branch up to `execvp`: `signal(SIGINT, SIG_IGN)`, then
`setenv("parent", getcwd(...), 1)`. The child starts as a copy `p` of the shell. -/
def launchProgChild (p : Proc) (cwd : String) (args : List String) : ExecState :=
  let p1 := sys_signal_SIGINT p SIG_IGN
  let p2 := sys_setenv p1 "parent" cwd
  ⟨p2, args⟩

/-- What the parent does after the fork in `launchProg`. -/
inductive ParentAct where
  | printf (text : String)
  | waitpid (pid : Int)
  deriving DecidableEq, Repr

/-- What a call of `launchProg` did: the globals at return, the child at its `execvp`
(when one was forked), and the actions of the parent. -/
structure LaunchOutcome where
  globals : Globals
  child : Option ExecState
  parent : List ParentAct
  deriving DecidableEq, Repr

/-- The function `void launchProg(char **args, int background)`, run by a shell whose process state is
`p`, whose working directory is `cwd` and whose globals are `g`, for a given result of
`fork()`. Line 115 assigns the global `pid`. -/
def launchProg (fr : ForkResult) (p : Proc) (cwd : String) (g : Globals)
    (args : List String) (background : Int) : LaunchOutcome :=
  let g1 := { g with pid := fr.toInt }
  match fr with
  | .failed => ⟨g1, none, [.printf "Child process could not be created\n"]⟩
  | .child _ =>
    let c := launchProgChild p cwd args
    if background = 0 then ⟨g1, some c, [.waitpid g1.pid]⟩
    else ⟨g1, some c, [.printf ("Process created with PID: " ++ toString g1.pid ++ "\n")]⟩

/-! ## signalHandler_int (lines 77-85) -/

/-- What the interrupt handler does, in order. -/
inductive HandlerAct where
  | kill (pid : Int) (sig : Nat)
  | printf (text : String)
  | set_no_reprint_prmpt (value : Int)
  deriving DecidableEq, Repr

def SIGTERM : Nat := 15

/-- The function `void signalHandler_int(int p)`, with `kill` the oracle giving the return value of
`kill(pid, SIGTERM)` for each target. Returns the globals afterwards and the actions. -/
def signalHandler_int (kill : Int → Int) (g : Globals) : Globals × List HandlerAct :=
  if kill g.pid = 0 then
    ({ g with no_reprint_prmpt := 1 },
      [.kill g.pid SIGTERM,
       .printf ("\nProcess " ++ toString g.pid ++ " received a SIGINT signal\n"),
       .set_no_reprint_prmpt 1])
  else
    (g, [.kill g.pid SIGTERM, .printf "\n"])

/-! ## commandHandler (lines 308-355) -/

/-- A call `commandHandler` makes to another function. -/
inductive Call where
  | exit (status : Int)
  | system (cmd : String)
  | changeDirectory (args : List String)
  | pipeHandler (args : List String)
  | launchProg (args : List String) (background : Int)
  deriving DecidableEq, Repr

/-- How a call of `commandHandler` ends: it returns a value after some calls, it leaves
through `exit`, or its behaviour is undefined (an access outside an array, `strcmp` on
NULL) or the budget of the model ran out. -/
inductive CmdResult where
  | returned (value : Int) (calls : List Call)
  | exited (calls : List Call)
  | undefined
  deriving DecidableEq, Repr

/-- The size of `char *args_aux[256]`. -/
def ARGS_AUX_SIZE : Nat := 256

/-- Lines 321-327: copy tokens into `args_aux` up to the first ";". Arguments: budget,
`j`, the contents of `args_aux`. A write past the array is undefined (`none`). -/
def copyLoop (env : Env) (tokens : List String) :
    Nat → Nat → (Nat → Option String) → Option (Nat × (Nat → Option String))
  | 0, _, _ => none
  | fuel + 1, j, args_aux =>
    match argAt env tokens j with
    | none => some (j, args_aux)
    | some tok =>
      if tok = ";" then some (j, args_aux)
      else if j < ARGS_AUX_SIZE then
        copyLoop env tokens fuel (j + 1) (Function.update args_aux j (some tok))
      else none

/-- Lines 339-348: look for ";". Arguments: budget, `i`, `background`. Result: whether the
loop left through the call of `pipeHandler`, and `i`. -/
def detectLoop (env : Env) (tokens : List String) : Nat → Nat → Int → Option (Bool × Nat)
  | 0, _, _ => none
  | fuel + 1, i, background =>
    if (argAt env tokens i).isSome && background == 0 then
      if argAt env tokens i = some ";" then some (true, i)
      else detectLoop env tokens fuel (i + 1) background
    else some (false, i)

/-- The null-terminated vector a callee finds in an array: the entries from index `k` up
to the first NULL. `n` is the number of entries left in the array; no NULL among them
means the callee reads past the array (`none`). -/
def cvec (a : Nat → Option String) : Nat → Nat → Option (List String)
  | 0, _ => none
  | n + 1, k =>
    match a k with
    | none => some []
    | some tok => (cvec a n (k + 1)).map (fun rest => tok :: rest)

/-- The function `int commandHandler(char *args[])`; `aux0` is what the uninitialised `args_aux`
holds at entry. -/
def commandHandler (env : Env) (aux0 : Nat → Option String) (tokens : List String) :
    CmdResult :=
  let background : Int := 0
  match copyLoop env tokens (tokens.length + 1) 0 aux0 with
  | none => .undefined
  | some (_, args_aux) =>
    match argAt env tokens 0 with
    | none => .undefined
    | some a0 =>
      if a0 = "quit" then .exited [.exit 0]
      else if a0 = "clear" then .returned 1 [.system "clear"]
      else if a0 = "cd" then .returned 1 [.changeDirectory tokens]
      else
        match detectLoop env tokens (tokens.length + 1) 0 background with
        | none => .undefined
        | some (true, _) => .returned 1 [.pipeHandler tokens]
        | some (false, i) =>
          if i < ARGS_AUX_SIZE then
            match cvec (Function.update args_aux i none) ARGS_AUX_SIZE 0 with
            | none => .undefined
            | some v => .returned 1 [.launchProg v background]
          else .undefined

/-! ## Descriptions used by the proofs -/

/-- The command vectors the main loop of `pipeHandler` builds, read off the token list:
cut at every ";", and nothing after a ";" that ends the list. -/
def codeSplit : List String → List (List String)
  | [] => []
  | t :: ts =>
    if t = ";" then [] :: codeSplit ts
    else
      match codeSplit ts with
      | [] => [[t]]
      | seg :: more => (t :: seg) :: more

/-- The rounds of `pipeHandler` for a given list of command vectors, from stage `i` on:
`pipeRound` for each in turn, stopping at a failed fork. -/
def runStages (env : Env) (num_cmds : Nat) :
    Nat → List (List String) → PState → List StageRun × PState
  | _, [], s => ([], s)
  | i, c :: cs, s =>
    match env.forkRes i with
    | .failed => ([(pipeRound env (env.forkRes i) num_cmds i c s).1],
        (pipeRound env (env.forkRes i) num_cmds i c s).2)
    | .child _ =>
      ((pipeRound env (env.forkRes i) num_cmds i c s).1 ::
          (runStages env num_cmds (i + 1) cs (pipeRound env (env.forkRes i) num_cmds i c s).2).1,
        (runStages env num_cmds (i + 1) cs (pipeRound env (env.forkRes i) num_cmds i c s).2).2)

/-- Every fork of the call succeeds. -/
def AllForksOk (env : Env) : Prop := ∀ i, ∃ p, env.forkRes i = .child p

/-- The array slot that stage `i - 1` filled: `filedes2` when `i` is odd, `filedes` when
`i` is even. -/
def prevSlot (i : Nat) (s : PState) : Option (Nat × Nat) :=
  if i % 2 ≠ 0 then s.filedes2 else s.filedes

/-- The state at the start of round `i`: for `i > 0` the slot of stage `i - 1` is filled
and its read end is still open in the shell, referring to the pipe of that stage. -/
def SlotInv (i : Nat) (s : PState) : Prop :=
  i = 0 ∨ ∃ r w, prevSlot i s = some (r, w) ∧ s.fds.lookup r = some (.pipeRead (i - 1))

/-- The call passed a descriptor value that a `pipe()` call had stored: one of the two
descriptors `cur` returned by the `pipe()` call of round `k`, or one of the two
descriptors `prev` returned by the `pipe()` call of round `k - 1` (`none` for a call that
failed or does not exist); and at the moment of the call that descriptor was open in the
calling process and still referred to the matching end of that very pipe. -/
def FdCall.fromPipes (cur prev : Option (Nat × Nat)) (k : Nat) (c : FdCall) : Bool :=
  match c.src, c.found with
  | some fd, some (.pipeRead p) =>
    (p == k && cur.map Prod.fst == some fd) || (p + 1 == k && prev.map Prod.fst == some fd)
  | some fd, some (.pipeWrite p) =>
    (p == k && cur.map Prod.snd == some fd) || (p + 1 == k && prev.map Prod.snd == some fd)
  | _, _ => false

/-- The descriptors returned by the `pipe()` call of the round before round `k`, read off
the list of rounds (`none` for round 0). -/
def prevPipeFds (stages : List StageRun) (k : Nat) : Option (Nat × Nat) :=
  if k = 0 then none else (stages[k - 1]?).bind StageRun.pipeFds

/-- Every `pipe()` call in a list of rounds returned descriptors. -/
def allPipesOk (stages : List StageRun) : Bool :=
  stages.all (fun st => st.pipeFds.isSome)

/-- The child of a round made a `dup2` call onto descriptor `target`. -/
def StageRun.redirects (r : StageRun) (target : Nat) : Bool :=
  match r.child with
  | none => false
  | some c => c.dups.any (fun d => d.target == target)

/-- What descriptor `fd` of the child of a round refers to when it calls `execvp`. -/
def StageRun.childFd (r : StageRun) (fd : Nat) : Option FdObj :=
  match r.child with
  | none => none
  | some c => c.fds.lookup fd

/-- The number of ";" tokens. -/
def delimCount (tokens : List String) : Nat := tokens.count ";"

/-- The `dup2` calls of the child of a round (none when no child was forked). -/
def StageRun.dups (r : StageRun) : List FdCall :=
  match r.child with
  | none => []
  | some c => c.dups

/-- The state in which the child of round `i` starts and the parent goes on: the slot of
the round filled by `pipe()`, the local `pid` assigned. -/
def afterFork (env : Env) (fr : ForkResult) (i : Nat) (s : PState) : PState :=
  { openPipe env i s with pid := some fr.toInt }

/-- An environment in which every fork succeeds (round `i` gets child `100 + i`), the
token array holds a stale token behind its sentinel, the kernel serves every `pipe()`
call and the descriptor limit is the usual 1024. -/
def envOk : Env := ⟨fun i => .child (100 + i), fun _ => some "stale", fun _ => true, 1024⟩

/-- The environment `envOk` for a shell started with a descriptor limit of 4
(`ulimit -n 4`): with descriptors 0, 1, 2 open only one more fits. -/
def envTight : Env := { envOk with nofile := 4 }

/-- The globals as `main` initialises them (lines 438-440). -/
def globals0 : Globals := ⟨-10, 0⟩

/-- The shell process after `init`: SIGINT is caught by `signalHandler_int`. -/
def shellProc : Proc := ⟨.handler "signalHandler_int", []⟩

/-- Every `pipe()` call of the run of `pipeHandler` returned descriptors. -/
def pipesSucceed (env : Env) (g : Globals) (fds : FdTable) (tokens : List String) : Bool :=
  match pipeHandler env g fds tokens with
  | none => false
  | some out => allPipesOk out.stages

/-! ## Descriptor tables -/

theorem lookup_install (t : FdTable) (fd fd2 : Nat) (o : FdObj) :
    (t.install fd o).lookup fd2 = if fd2 = fd then some o else t.lookup fd2 := by
  unfold FdTable.install FdTable.lookup
  by_cases h : fd < t.length
  · simp only [h, if_true, List.getElem?_set]
    by_cases e : fd = fd2
    · subst e; simp [h]
    · have e2 : ¬ fd2 = fd := fun x => e x.symm
      simp [e, e2]
  · simp only [h, if_false]
    have hle : t.length ≤ fd := Nat.le_of_not_lt h
    rcases Nat.lt_trichotomy fd2 fd with hlt | heq | hgt
    · have e2 : ¬ fd2 = fd := Nat.ne_of_lt hlt
      simp only [e2, if_false, List.append_assoc]
      by_cases h2 : fd2 < t.length
      · rw [List.getElem?_append_left h2]
      · have hle2 : t.length ≤ fd2 := Nat.le_of_not_lt h2
        rw [List.getElem?_append_right hle2, List.getElem?_eq_none hle2]
        have : fd2 - t.length < fd - t.length := by omega
        rw [List.getElem?_append_left (by simpa using this)]
        simp [List.getElem?_replicate, this]
    · subst heq
      simp only [if_true, List.append_assoc]
      rw [List.getElem?_append_right hle, List.getElem?_append_right (by simp)]
      simp
    · have e2 : ¬ fd2 = fd := Nat.ne_of_gt hgt
      simp only [e2, if_false]
      rw [List.getElem?_eq_none (by simp; omega), List.getElem?_eq_none (by omega)]

theorem lookup_release (t : FdTable) (fd fd2 : Nat) :
    (t.release fd).lookup fd2 = if fd2 = fd then none else t.lookup fd2 := by
  unfold FdTable.release FdTable.lookup
  rw [List.getElem?_set]
  by_cases e : fd = fd2
  · subst e
    by_cases h : fd < t.length <;> simp [h]
  · have e2 : ¬ fd2 = fd := fun x => e x.symm
    simp [e, e2]

theorem lookup_lowestFree (t : FdTable) : t.lookup t.lowestFree = none := by
  unfold FdTable.lookup FdTable.lowestFree
  by_cases h : List.findIdx (fun e => e.isNone) t < t.length
  · have := @List.findIdx_getElem _ (fun e : Option FdObj => e.isNone) t h
    rw [List.getElem?_eq_getElem h]
    simp only [Option.isNone_iff_eq_none] at this
    simp [this]
  · rw [List.getElem?_eq_none (Nat.le_of_not_lt h)]
    rfl

theorem lowestFree_eq_zero (t : FdTable) (h : t.lookup 0 = none) : t.lowestFree = 0 := by
  unfold FdTable.lowestFree
  cases t with
  | nil => rfl
  | cons e es =>
    have : e = none := by simpa [FdTable.lookup] using h
    subst this
    simp [List.findIdx_cons]

/-- What a successful `pipe()` guarantees: two distinct fresh descriptors, the second not
descriptor 0, referring to the two ends of the new pipe, every other descriptor
untouched. -/
theorem sys_pipe_spec {nofile : Nat} {ok : Bool} {t t2 : FdTable} {p r w : Nat}
    (h : sys_pipe nofile ok t p = some ((r, w), t2)) :
    r ≠ w ∧ w ≠ 0 ∧ t.lookup r = none ∧ t.lookup w = none ∧
    t2.lookup r = some (.pipeRead p) ∧ t2.lookup w = some (.pipeWrite p) ∧
    ∀ fd, fd ≠ r → fd ≠ w → t2.lookup fd = t.lookup fd := by
  simp only [sys_pipe] at h
  split at h
  · simp only [Option.some.injEq, Prod.mk.injEq] at h
    obtain ⟨⟨hr, hw⟩, ht2⟩ := h
    subst hr hw ht2
    set r := t.lowestFree with hr
    set t1 := t.install r (.pipeRead p) with ht1
    set w := t1.lowestFree with hw
    have hfr : t.lookup r = none := lookup_lowestFree t
    have hfw : t1.lookup w = none := lookup_lowestFree t1
    have hne : r ≠ w := by
      intro e
      rw [← e, ht1, lookup_install] at hfw
      simp at hfw
    have hne2 : ¬ w = r := fun e => hne e.symm
    have hfw2 : t.lookup w = none := by
      rw [ht1, lookup_install] at hfw
      simpa [hne2] using hfw
    refine ⟨hne, ?_, hfr, hfw2, ?_, ?_, ?_⟩
    · intro e
      have h0 : t.lookup 0 = none := by rw [← e]; exact hfw2
      have : r = 0 := lowestFree_eq_zero t h0
      exact hne (by rw [this, e])
    · rw [lookup_install, lookup_install]; simp [hne]
    · rw [lookup_install]; simp
    · intro fd h1 h2
      rw [lookup_install, lookup_install]; simp [h1, h2]
  · exact Option.noConfusion h

/-! ## The token array and the loops over it -/

theorem drop_cons_lt {tokens : List String} {j : Nat} {t : String} {rest : List String}
    (h : tokens.drop j = t :: rest) : j < tokens.length := by
  by_contra hn
  rw [List.drop_of_length_le (Nat.le_of_not_lt hn)] at h
  exact List.noConfusion h

theorem drop_cons_succ {tokens : List String} {j : Nat} {t : String} {rest : List String}
    (h : tokens.drop j = t :: rest) : tokens.drop (j + 1) = rest := by
  have : tokens.drop (j + 1) = (tokens.drop j).drop 1 := by
    rw [List.drop_drop, Nat.add_comm]
  rw [this, h]
  rfl

theorem drop_length_le (tokens : List String) (j : Nat) :
    (tokens.drop j).length ≤ tokens.length := by
  rw [List.length_drop]; omega

theorem argAt_of_drop_cons (env : Env) {tokens : List String} {j : Nat} {t : String}
    {rest : List String} (h : tokens.drop j = t :: rest) : argAt env tokens j = some t := by
  have hj := drop_cons_lt h
  unfold argAt
  rw [if_pos hj, List.getElem?_eq_getElem hj]
  have := List.drop_eq_getElem_cons hj
  rw [h] at this
  injection this with h1 _
  rw [h1]

theorem argAt_of_drop_nil (env : Env) {tokens : List String} {j : Nat}
    (h : tokens.drop j = []) (hj : j ≤ tokens.length) : argAt env tokens j = none := by
  have h1 : tokens.length ≤ j := by
    have := congrArg List.length h
    rw [List.length_drop] at this
    simp at this
    omega
  have h2 : j = tokens.length := Nat.le_antisymm hj h1
  unfold argAt
  simp [h2]

theorem countLoop_spec (env : Env) (tokens : List String) :
    ∀ (rest : List String) (fuel l n : Nat), tokens.drop l = rest → l ≤ tokens.length →
      rest.length < fuel → countLoop env tokens fuel l n = some (n + delimCount rest) := by
  intro rest
  induction rest with
  | nil =>
    intro fuel l n h hl hf
    cases fuel with
    | zero => exact absurd hf (Nat.not_lt_zero _)
    | succ fuel =>
      simp [countLoop, argAt_of_drop_nil env h hl, delimCount]
  | cons t rest ih =>
    intro fuel l n h hl hf
    cases fuel with
    | zero => exact absurd hf (Nat.not_lt_zero _)
    | succ fuel =>
      have hlt := drop_cons_lt h
      simp only [countLoop, argAt_of_drop_cons env h]
      rw [ih fuel (l + 1) _ (drop_cons_succ h) hlt (by simpa using hf)]
      by_cases e : t = ";"
      · subst e; simp [delimCount]; omega
      · have e2 : ¬ (";" = t) := fun x => e x.symm
        simp [delimCount, e, List.count_cons, e2]

theorem codeSplit_ne_nil (t : String) (ts : List String) : codeSplit (t :: ts) ≠ [] := by
  unfold codeSplit
  by_cases e : t = ";"
  · simp [e]
  · simp only [e, if_false]
    cases codeSplit ts <;> simp

/-- What the inner loop leaves behind, in terms of `codeSplit`. -/
theorem scanCommand_spec (env : Env) (tokens : List String) :
    ∀ (rest : List String) (t : String) (fuel j : Nat) (command : List String),
      tokens.drop j = t :: rest → rest.length < fuel →
      ∃ j1 seg e, scanCommand env tokens fuel j command = some (j1, command ++ seg, e) ∧
        j ≤ j1 ∧ j1 < tokens.length + 1 ∧
        codeSplit (t :: rest) = seg :: (if e = true then [] else codeSplit (tokens.drop (j1 + 1))) ∧
        (e = false → j1 < tokens.length) := by
  intro rest
  induction rest with
  | nil =>
    intro t fuel j command h hf
    cases fuel with
    | zero => exact absurd hf (Nat.not_lt_zero _)
    | succ fuel =>
      have hlt := drop_cons_lt h
      by_cases e : t = ";"
      · refine ⟨j, [], false, ?_, Nat.le_refl _, by omega, ?_, fun _ => hlt⟩
        · simp [scanCommand, argAt_of_drop_cons env h, e]
        · simp [codeSplit, e, drop_cons_succ h]
      · refine ⟨j + 1, [t], true, ?_, by omega, by omega, ?_, ?_⟩
        · simp [scanCommand, argAt_of_drop_cons env h, e,
            argAt_of_drop_nil env (drop_cons_succ h) hlt]
        · simp [codeSplit, e]
        · intro x; exact absurd x (by simp)
  | cons t2 rest ih =>
    intro t fuel j command h hf
    cases fuel with
    | zero => exact absurd hf (Nat.not_lt_zero _)
    | succ fuel =>
      have hlt := drop_cons_lt h
      have hnext := drop_cons_succ h
      by_cases e : t = ";"
      · refine ⟨j, [], false, ?_, Nat.le_refl _, by omega, ?_, fun _ => hlt⟩
        · simp [scanCommand, argAt_of_drop_cons env h, e]
        · rw [hnext]; simp [codeSplit, e]
      · obtain ⟨j1, seg, e1, hs, hj, hb, hc, hl⟩ :=
          ih t2 fuel (j + 1) (command ++ [t]) hnext (by simpa using hf)
        refine ⟨j1, t :: seg, e1, ?_, by omega, hb, ?_, hl⟩
        · simp [scanCommand, argAt_of_drop_cons env h, e, argAt_of_drop_cons env hnext, hs]
        · have : codeSplit (t :: t2 :: rest) =
              match codeSplit (t2 :: rest) with
              | [] => [[t]]
              | seg :: more => (t :: seg) :: more := by
            rw [codeSplit]; simp [e]
          rw [this, hc]

theorem pipeLoop_done (env : Env) (tokens : List String) (num_cmds fuel i j : Nat)
    (s : PState) : pipeLoop env tokens num_cmds (fuel + 1) i j true s = some ([], s) := by
  simp [pipeLoop]

/-- The main loop runs `pipeRound` once for each vector of `codeSplit`, in order. -/
theorem pipeLoop_spec (env : Env) (tokens : List String) (num_cmds : Nat) :
    ∀ (fuel i j : Nat) (s : PState), j ≤ tokens.length →
      (tokens.drop j).length + 1 ≤ fuel →
      pipeLoop env tokens num_cmds fuel i j false s =
        some (runStages env num_cmds i (codeSplit (tokens.drop j)) s) := by
  intro fuel
  induction fuel with
  | zero => intro i j s _ hf; omega
  | succ fuel ih =>
    intro i j s hj hf
    cases hrest : tokens.drop j with
    | nil =>
      simp [pipeLoop, argAt_of_drop_nil env hrest hj, codeSplit, runStages]
    | cons t rest =>
      have hlen : rest.length < tokens.length + 1 := by
        have := drop_length_le tokens j
        rw [hrest] at this
        simp at this
        omega
      obtain ⟨j1, seg, e, hs, hj1, hb, hc, hl⟩ :=
        scanCommand_spec env tokens rest t (tokens.length + 1) j [] hrest hlen
      rw [hrest] at hf
      simp only [List.length_cons] at hf
      rw [hc]
      simp only [pipeLoop, argAt_of_drop_cons env hrest, Option.isSome_some, Bool.not_false,
        Bool.and_self, if_true, hs, List.nil_append, runStages]
      cases hfr : env.forkRes i with
      | failed => rfl
      | child p =>
        simp only
        cases e with
        | true =>
          cases fuel with
          | zero => omega
          | succ fuel =>
            rw [pipeLoop_done]
            simp [runStages]
        | false =>
          have hj2 : j1 < tokens.length := hl rfl
          have hd : (tokens.drop (j1 + 1)).length + 1 ≤ fuel := by
            rw [List.length_drop]
            have : rest.length = tokens.length - j - 1 := by
              have := congrArg List.length hrest
              rw [List.length_drop] at this
              simp at this
              omega
            omega
          rw [ih (i + 1) (j1 + 1) _ hj2 hd]
          simp

/-- The function `pipeHandler` always returns, and what it did is `runStages` on `codeSplit`. -/
theorem pipeHandler_eq (env : Env) (g : Globals) (fds : FdTable) (tokens : List String) :
    pipeHandler env g fds tokens =
      some ⟨delimCount tokens + 1,
        (runStages env (delimCount tokens + 1) 0 (codeSplit tokens) ⟨none, none, fds, none⟩).1,
        (runStages env (delimCount tokens + 1) 0 (codeSplit tokens) ⟨none, none, fds, none⟩).2.fds,
        (runStages env (delimCount tokens + 1) 0 (codeSplit tokens) ⟨none, none, fds, none⟩).2.pid,
        g⟩ := by
  unfold pipeHandler
  rw [countLoop_spec env tokens tokens (tokens.length + 1) 0 0 rfl (Nat.zero_le _)
    (Nat.lt_succ_self _)]
  simp only [Nat.zero_add]
  rw [pipeLoop_spec env tokens _ (tokens.length + 2) 0 0 _ (Nat.zero_le _) (by simp)]
  simp

/-! ## `codeSplit` against splitting on the delimiter -/

theorem splitOn_delim_cons (t : String) (ts : List String) :
    (t :: ts).splitOn ";" =
      if t = ";" then [] :: ts.splitOn ";"
      else List.modifyHead (List.cons t) (ts.splitOn ";") := by
  simp only [List.splitOn, List.splitOnP_cons, beq_iff_eq]

theorem splitOn_delim_ne_nil (ts : List String) : ts.splitOn ";" ≠ [] := by
  simp only [List.splitOn]
  exact List.splitOnP_ne_nil _ _

theorem headCons_eq_modifyHead (t : String) :
    ∀ l : List (List String), l ≠ [] →
      (match l with
        | [] => [[t]]
        | seg :: more => (t :: seg) :: more) = List.modifyHead (List.cons t) l := by
  intro l h
  cases l with
  | nil => exact absurd rfl h
  | cons a b => rfl

theorem codeSplit_append_delim (pre : List String) :
    codeSplit (pre ++ [";"]) = pre.splitOn ";" := by
  induction pre with
  | nil => simp [codeSplit, List.splitOn]
  | cons t pre ih =>
    rw [splitOn_delim_cons, List.cons_append, codeSplit, ih]
    by_cases e : t = ";"
    · simp [e]
    · simp only [e, if_false]
      exact headCons_eq_modifyHead t _ (splitOn_delim_ne_nil pre)

theorem codeSplit_eq_splitOn (ts : List String) (hne : ts ≠ [])
    (hlast : ts.getLast? ≠ some ";") : codeSplit ts = ts.splitOn ";" := by
  induction ts with
  | nil => exact absurd rfl hne
  | cons t ts ih =>
    rw [splitOn_delim_cons, codeSplit]
    cases ts with
    | nil =>
      have e : t ≠ ";" := by
        intro h; apply hlast; simp [h]
      simp [e, codeSplit, List.splitOn]
    | cons t2 ts2 =>
      have hl : (t2 :: ts2).getLast? ≠ some ";" := by
        simpa [List.getLast?_cons_cons] using hlast
      rw [ih (List.cons_ne_nil _ _) hl]
      by_cases e : t = ";"
      · simp [e]
      · simp only [e, if_false]
        exact headCons_eq_modifyHead t _ (splitOn_delim_ne_nil _)

theorem splitOn_delim_length (ts : List String) :
    (ts.splitOn ";").length = delimCount ts + 1 := by
  induction ts with
  | nil => simp [List.splitOn, delimCount]
  | cons t ts ih =>
    rw [splitOn_delim_cons]
    by_cases e : t = ";"
    · subst e; simp [ih, delimCount]
    · have e2 : ¬ (";" = t) := fun x => e x.symm
      simp only [e, if_false, List.length_modifyHead, ih]
      simp [delimCount, List.count_cons, e2]

theorem delimCount_append_delim (pre : List String) :
    delimCount (pre ++ [";"]) = delimCount pre + 1 := by
  simp [delimCount]

theorem codeSplit_length_le (ts : List String) :
    (codeSplit ts).length ≤ delimCount ts + 1 := by
  induction ts with
  | nil => simp [codeSplit]
  | cons t ts ih =>
    rw [codeSplit]
    by_cases e : t = ";"
    · subst e; simp [delimCount] at ih ⊢; omega
    · have e2 : ¬ (";" = t) := fun x => e x.symm
      simp only [e, if_false]
      have hc : delimCount (t :: ts) = delimCount ts := by
        simp [delimCount, List.count_cons, e2]
      rw [hc]
      cases h : codeSplit ts with
      | nil => simp
      | cons a b => rw [h] at ih; simpa using ih

/-! ## The list of rounds -/

theorem runStages_length_le (env : Env) (n : Nat) :
    ∀ (cs : List (List String)) (i : Nat) (s : PState),
      (runStages env n i cs s).1.length ≤ cs.length := by
  intro cs
  induction cs with
  | nil => intro i s; simp [runStages]
  | cons c cs ih =>
    intro i s
    rw [runStages]
    cases h : env.forkRes i with
    | failed => simp
    | child p => simpa using ih (i + 1) _

theorem pipeRound_command (env : Env) (fr : ForkResult) (n i : Nat) (c : List String)
    (s : PState) :
    (pipeRound env fr n i c s).1.command = c ∧ (pipeRound env fr n i c s).1.index = i ∧
      (pipeRound env fr n i c s).1.fork = fr := by
  cases fr <;> simp [pipeRound]

theorem runStages_commands (env : Env) (n : Nat) (hf : AllForksOk env) :
    ∀ (cs : List (List String)) (i : Nat) (s : PState),
      (runStages env n i cs s).1.map StageRun.command = cs := by
  intro cs
  induction cs with
  | nil => intro i s; simp [runStages]
  | cons c cs ih =>
    intro i s
    obtain ⟨p, hp⟩ := hf i
    rw [runStages]
    simp only [hp, List.map_cons, ih]
    rw [← hp, (pipeRound_command _ _ _ _ _ _).1]

theorem runStages_commands_le (env : Env) (n : Nat) :
    ∀ (cs : List (List String)) (i : Nat) (s : PState),
      (runStages env n i cs s).1.map StageRun.command <+: cs := by
  intro cs
  induction cs with
  | nil => intro i s; simp [runStages]
  | cons c cs ih =>
    intro i s
    rw [runStages]
    cases h : env.forkRes i with
    | failed =>
      simp only [List.map_cons, List.map_nil]
      rw [← h, (pipeRound_command _ _ _ _ _ _).1]
      exact ⟨cs, rfl⟩
    | child p =>
      simp only [List.map_cons]
      rw [← h, (pipeRound_command _ _ _ _ _ _).1, h]
      obtain ⟨rest, hrest⟩ := ih (i + 1) (pipeRound env (.child p) n i c s).2
      exact ⟨rest, by rw [List.cons_append, hrest]⟩

/-! ## One round of the main loop -/

theorem sys_close_open {t : FdTable} {fd : Nat} {o : FdObj} (h : t.lookup fd = some o) :
    sys_close t (some fd) = (t.release fd, ⟨some fd, 0, some o⟩) := by
  simp [sys_close, h]

theorem sys_dup2_open {t : FdTable} {fd : Nat} {o : FdObj} (tg : Nat)
    (h : t.lookup fd = some o) :
    sys_dup2 t (some fd) tg = (t.install tg o, ⟨some fd, tg, some o⟩) := by
  simp [sys_dup2, h]

theorem prevSlot_openPipe (env : Env) (i : Nat) (s : PState) :
    prevSlot i (openPipe env i s) = prevSlot i s := by
  unfold openPipe
  cases sys_pipe env.nofile (env.pipeOk i) s.fds i with
  | none => rfl
  | some r =>
    rcases Nat.mod_two_eq_zero_or_one i with h | h <;> simp [prevSlot, h]

theorem nextSlot_openPipe (env : Env) (i : Nat) (s : PState) {pf : Nat × Nat} {t2 : FdTable}
    (hp : sys_pipe env.nofile (env.pipeOk i) s.fds i = some (pf, t2)) :
    prevSlot (i + 1) (openPipe env i s) = some pf := by
  unfold openPipe
  rw [hp]
  rcases Nat.mod_two_eq_zero_or_one i with h | h
  · have h2 : (i + 1) % 2 = 1 := by omega
    simp [prevSlot, h, h2]
  · have h2 : (i + 1) % 2 = 0 := by omega
    simp [prevSlot, h, h2]

theorem fds_openPipe (env : Env) (i : Nat) (s : PState) {pf : Nat × Nat} {t2 : FdTable}
    (hp : sys_pipe env.nofile (env.pipeOk i) s.fds i = some (pf, t2)) :
    (openPipe env i s).fds = t2 := by
  unfold openPipe
  rw [hp]
  rcases Nat.mod_two_eq_zero_or_one i with h | h <;> simp [h]

theorem pipeChild_first (n : Nat) (c : List String) (s : PState) {r w : Nat} {o : FdObj}
    (hs : prevSlot 1 s = some (r, w)) (hw : s.fds.lookup w = some o) :
    pipeChild n 0 c s = ⟨[⟨some w, STDOUT_FILENO, some o⟩], s.fds.install STDOUT_FILENO o, c⟩ := by
  have h2 : s.filedes2 = some (r, w) := by simpa [prevSlot] using hs
  simp [pipeChild, h2, wr, sys_dup2_open _ hw]

theorem pipeChild_last (n i : Nat) (c : List String) (s : PState) {r0 w0 : Nat} {o : FdObj}
    (h0 : i ≠ 0) (hl : i = n - 1) (hs : prevSlot i s = some (r0, w0))
    (hr : s.fds.lookup r0 = some o) :
    pipeChild n i c s = ⟨[⟨some r0, STDIN_FILENO, some o⟩], s.fds.install STDIN_FILENO o, c⟩ := by
  rcases Nat.mod_two_eq_zero_or_one i with h | h
  · have hn : n % 2 = 1 := by omega
    have h2 : s.filedes = some (r0, w0) := by simpa [prevSlot, h] using hs
    simp [pipeChild, h0, ← hl, hn, h2, rd, sys_dup2_open _ hr]
  · have hn : n % 2 = 0 := by omega
    have h2 : s.filedes2 = some (r0, w0) := by simpa [prevSlot, h] using hs
    simp [pipeChild, h0, ← hl, hn, h2, rd, sys_dup2_open _ hr]

theorem pipeChild_mid (n i : Nat) (c : List String) (s : PState) {r0 w0 r w : Nat}
    {o1 o2 : FdObj} (h0 : i ≠ 0) (hl : i ≠ n - 1) (hs : prevSlot i s = some (r0, w0))
    (hn : prevSlot (i + 1) s = some (r, w)) (hr : s.fds.lookup r0 = some o1)
    (hw : s.fds.lookup w = some o2) (hw0 : w ≠ 0) :
    pipeChild n i c s =
      ⟨[⟨some r0, STDIN_FILENO, some o1⟩, ⟨some w, STDOUT_FILENO, some o2⟩],
        (s.fds.install STDIN_FILENO o1).install STDOUT_FILENO o2, c⟩ := by
  have hw2 : (s.fds.install STDIN_FILENO o1).lookup w = some o2 := by
    rw [lookup_install]; simp [STDIN_FILENO, hw0, hw]
  rcases Nat.mod_two_eq_zero_or_one i with h | h
  · have h1 : (i + 1) % 2 = 1 := by omega
    have h2 : s.filedes = some (r0, w0) := by simpa [prevSlot, h] using hs
    have h3 : s.filedes2 = some (r, w) := by simpa [prevSlot, h1] using hn
    simp [pipeChild, h0, hl, h, h2, h3, rd, wr, sys_dup2_open _ hr, sys_dup2_open _ hw2]
  · have h1 : (i + 1) % 2 = 0 := by omega
    have h2 : s.filedes2 = some (r0, w0) := by simpa [prevSlot, h] using hs
    have h3 : s.filedes = some (r, w) := by simpa [prevSlot, h1] using hn
    simp [pipeChild, h0, hl, h, h2, h3, rd, wr, sys_dup2_open _ hr, sys_dup2_open _ hw2]

theorem parentCloses_first (n : Nat) (s : PState) {r w : Nat} {o : FdObj}
    (hs : prevSlot 1 s = some (r, w)) (hw : s.fds.lookup w = some o) :
    parentCloses n 0 s = (s.fds.release w, [⟨some w, 0, some o⟩]) := by
  have h2 : s.filedes2 = some (r, w) := by simpa [prevSlot] using hs
  simp [parentCloses, h2, wr, sys_close_open hw]

theorem parentCloses_last (n i : Nat) (s : PState) {r0 w0 : Nat} {o : FdObj}
    (h0 : i ≠ 0) (hl : i = n - 1) (hs : prevSlot i s = some (r0, w0))
    (hr : s.fds.lookup r0 = some o) :
    parentCloses n i s = (s.fds.release r0, [⟨some r0, 0, some o⟩]) := by
  rcases Nat.mod_two_eq_zero_or_one i with h | h
  · have hn : n % 2 = 1 := by omega
    have h2 : s.filedes = some (r0, w0) := by simpa [prevSlot, h] using hs
    simp [parentCloses, h0, ← hl, hn, h2, rd, sys_close_open hr]
  · have hn : n % 2 = 0 := by omega
    have h2 : s.filedes2 = some (r0, w0) := by simpa [prevSlot, h] using hs
    simp [parentCloses, h0, ← hl, hn, h2, rd, sys_close_open hr]

theorem parentCloses_mid (n i : Nat) (s : PState) {r0 w0 r w : Nat}
    {o1 o2 : FdObj} (h0 : i ≠ 0) (hl : i ≠ n - 1) (hs : prevSlot i s = some (r0, w0))
    (hn : prevSlot (i + 1) s = some (r, w)) (hr : s.fds.lookup r0 = some o1)
    (hw : s.fds.lookup w = some o2) (hne : w ≠ r0) :
    parentCloses n i s =
      ((s.fds.release r0).release w, [⟨some r0, 0, some o1⟩, ⟨some w, 0, some o2⟩]) := by
  have hw2 : (s.fds.release r0).lookup w = some o2 := by
    rw [lookup_release]; simp [hne, hw]
  rcases Nat.mod_two_eq_zero_or_one i with h | h
  · have h1 : (i + 1) % 2 = 1 := by omega
    have h2 : s.filedes = some (r0, w0) := by simpa [prevSlot, h] using hs
    have h3 : s.filedes2 = some (r, w) := by simpa [prevSlot, h1] using hn
    simp [parentCloses, h0, hl, h, h2, h3, rd, wr, sys_close_open hr, sys_close_open hw2]
  · have h1 : (i + 1) % 2 = 0 := by omega
    have h2 : s.filedes2 = some (r0, w0) := by simpa [prevSlot, h] using hs
    have h3 : s.filedes = some (r, w) := by simpa [prevSlot, h1] using hn
    simp [parentCloses, h0, hl, h, h2, h3, rd, wr, sys_close_open hr, sys_close_open hw2]

theorem forkFailCloses_notLast (n i : Nat) (s : PState) {r w : Nat} {o : FdObj}
    (hl : i ≠ n - 1) (hn : prevSlot (i + 1) s = some (r, w)) (hw : s.fds.lookup w = some o) :
    forkFailCloses n i s = (s.fds.release w, [⟨some w, 0, some o⟩]) := by
  rcases Nat.mod_two_eq_zero_or_one i with h | h
  · have h1 : (i + 1) % 2 = 1 := by omega
    have h3 : s.filedes2 = some (r, w) := by simpa [prevSlot, h1] using hn
    simp [forkFailCloses, hl, h, h3, wr, sys_close_open hw]
  · have h1 : (i + 1) % 2 = 0 := by omega
    have h3 : s.filedes = some (r, w) := by simpa [prevSlot, h1] using hn
    simp [forkFailCloses, hl, h, h3, wr, sys_close_open hw]

theorem forkFailCloses_last (n i : Nat) (s : PState) (hl : i = n - 1) :
    forkFailCloses n i s = (s.fds, []) := by
  simp [forkFailCloses, hl]

theorem pipeRound_child_eq (env : Env) (p n i : Nat) (c : List String) (s : PState) :
    pipeRound env (.child p) n i c s =
      (⟨i, c, (sys_pipe env.nofile (env.pipeOk i) s.fds i).map Prod.fst, .child p,
          some (pipeChild n i c (afterFork env (.child p) i s)),
          (parentCloses n i (afterFork env (.child p) i s)).2⟩,
        { afterFork env (.child p) i s with
          fds := (parentCloses n i (afterFork env (.child p) i s)).1 }) := by
  rfl

theorem pipeRound_failed_eq (env : Env) (n i : Nat) (c : List String) (s : PState) :
    pipeRound env .failed n i c s =
      (⟨i, c, (sys_pipe env.nofile (env.pipeOk i) s.fds i).map Prod.fst, .failed, none,
          (forkFailCloses n i (afterFork env .failed i s)).2⟩,
        { afterFork env .failed i s with
          fds := (forkFailCloses n i (afterFork env .failed i s)).1 }) := by
  rfl

theorem pipeRound_pipeFds (env : Env) (fr : ForkResult) (n i : Nat) (c : List String)
    (s : PState) :
    (pipeRound env fr n i c s).1.pipeFds =
      (sys_pipe env.nofile (env.pipeOk i) s.fds i).map Prod.fst := by
  cases fr <;> rfl

/-- A round whose record shows descriptors is a round whose `pipe()` call succeeded. -/
theorem pipe_ok_of_round (env : Env) (fr : ForkResult) (n i : Nat) (c : List String)
    (s : PState) (h : (pipeRound env fr n i c s).1.pipeFds.isSome = true) :
    ∃ pf t2, sys_pipe env.nofile (env.pipeOk i) s.fds i = some (pf, t2) := by
  rw [pipeRound_pipeFds] at h
  cases hp : sys_pipe env.nofile (env.pipeOk i) s.fds i with
  | none => rw [hp] at h; simp at h
  | some r => exact ⟨r.1, r.2, rfl⟩

/-- The state after the fork of round `i`, started under `SlotInv`, when the `pipe()` call
of the round succeeded: the slot of the round holds the two fresh open descriptors the
call returned, for the ends of pipe `i`, the write end is not descriptor 0, and for
`i > 0` the slot of the round before is untouched and still holds an open read end of
pipe `i - 1`, a descriptor different from both new ones. -/
theorem afterFork_facts (env : Env) (fr : ForkResult) (i : Nat) (s : PState)
    (hinv : SlotInv i s) {r w : Nat} {t2 : FdTable}
    (hpipe : sys_pipe env.nofile (env.pipeOk i) s.fds i = some ((r, w), t2)) :
    prevSlot (i + 1) (afterFork env fr i s) = some (r, w) ∧ r ≠ w ∧ w ≠ 0 ∧
      (afterFork env fr i s).fds.lookup r = some (.pipeRead i) ∧
      (afterFork env fr i s).fds.lookup w = some (.pipeWrite i) ∧
      (i ≠ 0 → ∃ r0 w0, prevSlot i s = some (r0, w0) ∧
        prevSlot i (afterFork env fr i s) = some (r0, w0) ∧
        (afterFork env fr i s).fds.lookup r0 = some (.pipeRead (i - 1)) ∧ r0 ≠ r ∧ r0 ≠ w) := by
  obtain ⟨h1, h2, h3, h4, h5, h6, h7⟩ := sys_pipe_spec hpipe
  have hfds : (afterFork env fr i s).fds = t2 := fds_openPipe env i s hpipe
  have hnext : prevSlot (i + 1) (afterFork env fr i s) = some (r, w) :=
    nextSlot_openPipe env i s hpipe
  have hprev : prevSlot i (afterFork env fr i s) = prevSlot i s := prevSlot_openPipe env i s
  refine ⟨hnext, h1, h2, ?_, ?_, ?_⟩
  · rw [hfds]; exact h5
  · rw [hfds]; exact h6
  · intro h0
    rcases hinv with hz | ⟨r0, w0, hs, hr⟩
    · exact absurd hz h0
    · have n1 : r0 ≠ r := by
        intro e; rw [e, h3] at hr; exact Option.noConfusion hr
      have n2 : r0 ≠ w := by
        intro e; rw [e, h4] at hr; exact Option.noConfusion hr
      refine ⟨r0, w0, hs, by rw [hprev]; exact hs, ?_, n1, n2⟩
      rw [hfds, h7 r0 n1 n2]; exact hr

theorem pipeRound_nextSlot (env : Env) (fr : ForkResult) (n i : Nat) (c : List String)
    (s : PState) (h : (pipeRound env fr n i c s).1.pipeFds.isSome = true) :
    prevSlot (i + 1) (pipeRound env fr n i c s).2 = (pipeRound env fr n i c s).1.pipeFds := by
  obtain ⟨pf, t2, hp⟩ := pipe_ok_of_round env fr n i c s h
  rw [pipeRound_pipeFds, hp]
  cases fr <;> exact nextSlot_openPipe env i s hp

/-- What one round guarantees when it starts under `SlotInv` and its `pipe()` call
succeeds. -/
theorem pipeRound_facts (env : Env) (fr : ForkResult) (n i : Nat) (c : List String)
    (s : PState) (hinv : SlotInv i s)
    (hok : (pipeRound env fr n i c s).1.pipeFds.isSome = true) :
    (∀ cl ∈ (pipeRound env fr n i c s).1.closes,
      cl.fromPipes (pipeRound env fr n i c s).1.pipeFds
        (if i = 0 then none else prevSlot i s) i = true) ∧
    (∀ d ∈ (pipeRound env fr n i c s).1.dups,
      d.fromPipes (pipeRound env fr n i c s).1.pipeFds
        (if i = 0 then none else prevSlot i s) i = true) ∧
    (fr ≠ .failed → i ≠ n - 1 →
      (∃ w, (⟨some w, STDOUT_FILENO, some (.pipeWrite i)⟩ : FdCall) ∈
        (pipeRound env fr n i c s).1.dups) ∧
      (pipeRound env fr n i c s).1.childFd STDOUT_FILENO = some (.pipeWrite i) ∧
      SlotInv (i + 1) (pipeRound env fr n i c s).2) ∧
    (fr ≠ .failed → i ≠ 0 →
      (∃ r, (⟨some r, STDIN_FILENO, some (.pipeRead (i - 1))⟩ : FdCall) ∈
        (pipeRound env fr n i c s).1.dups) ∧
      (pipeRound env fr n i c s).1.childFd STDIN_FILENO = some (.pipeRead (i - 1))) := by
  obtain ⟨⟨r, w⟩, t2, hpipe⟩ := pipe_ok_of_round env fr n i c s hok
  obtain ⟨hnext, hrw, hw0, hr, hw, hprev⟩ := afterFork_facts env fr i s hinv hpipe
  have hwr : w ≠ r := fun e => hrw e.symm
  rw [pipeRound_pipeFds, hpipe]
  cases fr with
  | failed =>
    rw [pipeRound_failed_eq]
    refine ⟨?_, ?_, fun h => absurd rfl h, fun h => absurd rfl h⟩
    · by_cases hl : i = n - 1
      · rw [forkFailCloses_last n i _ hl]; simp
      · rw [forkFailCloses_notLast n i _ hl hnext hw]
        simp [FdCall.fromPipes]
    · simp [StageRun.dups]
  | child p =>
    rw [pipeRound_child_eq]
    by_cases h0 : i = 0
    · subst h0
      rw [pipeChild_first n c _ hnext hw, parentCloses_first n _ hnext hw]
      refine ⟨?_, ?_, ?_, fun _ h => absurd rfl h⟩
      · simp [FdCall.fromPipes]
      · simp [StageRun.dups, FdCall.fromPipes]
      · intro _ _
        refine ⟨⟨w, by simp [StageRun.dups]⟩, ?_, Or.inr ⟨r, w, hnext, ?_⟩⟩
        · simp [StageRun.childFd, lookup_install]
        · simp only [lookup_release, hrw, if_false]; exact hr
    · obtain ⟨r0, w0, hp0, hp, hr0, n1, n2⟩ := hprev h0
      have hi : i - 1 + 1 = i := Nat.sub_add_cancel (Nat.pos_of_ne_zero h0)
      by_cases hl : i = n - 1
      · rw [pipeChild_last n i c _ h0 hl hp hr0, parentCloses_last n i _ h0 hl hp hr0]
        refine ⟨?_, ?_, fun _ h => absurd hl h, ?_⟩
        · simp [FdCall.fromPipes, hi, h0, hp0]
        · simp [StageRun.dups, FdCall.fromPipes, hi, h0, hp0]
        · intro _ _
          refine ⟨⟨r0, by simp [StageRun.dups]⟩, ?_⟩
          simp [StageRun.childFd, lookup_install]
      · rw [pipeChild_mid n i c _ h0 hl hp hnext hr0 hw hw0,
          parentCloses_mid n i _ h0 hl hp hnext hr0 hw (fun e => n2 e.symm)]
        refine ⟨?_, ?_, ?_, ?_⟩
        · simp [FdCall.fromPipes, hi, h0, hp0]
        · simp [StageRun.dups, FdCall.fromPipes, hi, h0, hp0]
        · intro _ _
          refine ⟨⟨w, by simp [StageRun.dups]⟩, ?_, Or.inr ⟨r, w, hnext, ?_⟩⟩
          · simp [StageRun.childFd, lookup_install]
          · simp only [lookup_release, hrw, if_false, Nat.add_sub_cancel]
            rw [if_neg (fun e => n1 e.symm)]; exact hr
        · intro _ _
          refine ⟨⟨r0, by simp [StageRun.dups]⟩, ?_⟩
          simp [StageRun.childFd, lookup_install, STDIN_FILENO, STDOUT_FILENO]

/-- Round number `k` of a run that starts under `SlotInv`, has no more command vectors
than `num_cmds` leaves and in which every `pipe()` call succeeds: it is `pipeRound` at
stage `i + k`, started under `SlotInv`, and for `k > 0` the slot of the round before
holds what the `pipe()` call of that round returned. -/
theorem runStages_get (env : Env) (n : Nat) :
    ∀ (cs : List (List String)) (i : Nat) (s : PState), SlotInv i s → i + cs.length ≤ n →
      allPipesOk (runStages env n i cs s).1 = true →
      ∀ (k : Nat) (st : StageRun), (runStages env n i cs s).1[k]? = some st →
        ∃ s1 c, SlotInv (i + k) s1 ∧ cs[k]? = some c ∧
          st = (pipeRound env (env.forkRes (i + k)) n (i + k) c s1).1 ∧
          (k = 0 → s1 = s) ∧
          (k ≠ 0 → prevSlot (i + k) s1 =
            ((runStages env n i cs s).1[k - 1]?).bind StageRun.pipeFds) := by
  intro cs
  induction cs with
  | nil =>
    intro i s _ _ _ k st h
    simp [runStages] at h
  | cons c cs ih =>
    intro i s hinv hlen hall k st h
    rw [runStages] at h hall ⊢
    cases hfr : env.forkRes i with
    | failed =>
      rw [hfr] at h
      cases k with
      | zero =>
        refine ⟨s, c, hinv, by simp, ?_, fun _ => rfl, fun x => absurd rfl x⟩
        simp only [List.getElem?_cons_zero, Option.some.injEq] at h
        rw [Nat.add_zero, hfr]; exact h.symm
      | succ k => simp at h
    | child p =>
      rw [hfr] at h hall
      simp only [allPipesOk, List.all_cons, Bool.and_eq_true] at hall
      obtain ⟨hok, hall2⟩ := hall
      cases k with
      | zero =>
        refine ⟨s, c, hinv, by simp, ?_, fun _ => rfl, fun x => absurd rfl x⟩
        simp only [List.getElem?_cons_zero, Option.some.injEq] at h
        rw [Nat.add_zero, hfr]; exact h.symm
      | succ k =>
        simp only [List.getElem?_cons_succ] at h
        have hk : k < (runStages env n (i + 1) cs
            (pipeRound env (.child p) n i c s).2).1.length := by
          by_contra hn
          rw [List.getElem?_eq_none (Nat.le_of_not_lt hn)] at h
          exact Option.noConfusion h
        have hcs : k < cs.length := Nat.lt_of_lt_of_le hk (runStages_length_le env n cs _ _)
        simp only [List.length_cons] at hlen
        have hl : i ≠ n - 1 := by omega
        have hinv2 : SlotInv (i + 1) (pipeRound env (.child p) n i c s).2 :=
          ((pipeRound_facts env (.child p) n i c s hinv hok).2.2.1 (by simp) hl).2.2
        obtain ⟨s1, c1, h1, h2, h3, h4, h5⟩ := ih (i + 1) _ hinv2 (by omega) hall2 k st h
        have e : i + 1 + k = i + (k + 1) := by omega
        rw [e] at h1 h3 h5
        refine ⟨s1, c1, h1, by simpa using h2, h3, fun x => absurd x (Nat.succ_ne_zero k), ?_⟩
        intro _
        simp only [Nat.add_sub_cancel]
        cases k with
        | zero =>
          rw [h4 rfl]
          simp only [List.getElem?_cons_zero, Option.some_bind]
          exact pipeRound_nextSlot env (.child p) n i c s hok
        | succ m =>
          rw [h5 (Nat.succ_ne_zero m)]
          simp

theorem pipeRound_pid (env : Env) (fr : ForkResult) (n i : Nat) (c : List String)
    (s : PState) : (pipeRound env fr n i c s).2.pid = some fr.toInt := by
  cases fr <;> rfl

/-- The local `pid` at return holds the result of the last fork made. -/
theorem runStages_pid (env : Env) (n : Nat) :
    ∀ (cs : List (List String)) (i : Nat) (s : PState),
      (runStages env n i cs s).2.pid =
        match (runStages env n i cs s).1.getLast? with
        | none => s.pid
        | some st => some st.fork.toInt := by
  intro cs
  induction cs with
  | nil => intro i s; simp [runStages]
  | cons c cs ih =>
    intro i s
    rw [runStages]
    cases hfr : env.forkRes i with
    | failed =>
      simp only [List.getLast?_singleton]
      rw [pipeRound_pid, (pipeRound_command _ _ _ _ _ _).2.2]
    | child p =>
      simp only
      rw [ih (i + 1) _]
      cases hrest : (runStages env n (i + 1) cs (pipeRound env (.child p) n i c s).2).1 with
      | nil =>
        simp only [List.getLast?_singleton, List.getLast?_nil]
        rw [pipeRound_pid, (pipeRound_command _ _ _ _ _ _).2.2]
      | cons a b =>
        rw [List.getLast?_cons_cons]
        cases hg : (a :: b).getLast? with
        | none => simp at hg
        | some st => rfl

theorem slotInv_zero (s : PState) : SlotInv 0 s := Or.inl rfl

theorem splitOn_append_delim (pre : List String) :
    (pre ++ [";"]).splitOn ";" = pre.splitOn ";" ++ [[]] := by
  induction pre with
  | nil => simp [List.splitOn]
  | cons t pre ih =>
    rw [List.cons_append, splitOn_delim_cons, splitOn_delim_cons, ih]
    by_cases e : t = ";"
    · simp [e]
    · simp only [e, if_false]
      cases h : pre.splitOn ";" with
      | nil => exact absurd h (splitOn_delim_ne_nil pre)
      | cons a b => rfl

/-- A token list that is empty or ends in ";" has an empty last segment. -/
theorem nil_mem_splitOn (ts : List String) (h : ts = [] ∨ ts.getLast? = some ";") :
    [] ∈ ts.splitOn ";" := by
  rcases h with h | h
  · subst h; simp [List.splitOn]
  · obtain ⟨pre, hp⟩ := List.getLast?_eq_some_iff.mp h
    rw [hp, splitOn_append_delim]
    simp

/-! ## The loops of `commandHandler` -/

theorem getElem?_of_drop_cons {tokens : List String} {j : Nat} {t : String}
    {rest : List String} (h : tokens.drop j = t :: rest) : tokens[j]? = some t := by
  have hj := drop_cons_lt h
  have := List.drop_eq_getElem_cons hj
  rw [h] at this
  injection this with h1 _
  rw [List.getElem?_eq_getElem hj, h1]

theorem copyLoop_spec (env : Env) (tokens : List String) (hlen : tokens.length < ARGS_AUX_SIZE) :
    ∀ (rest : List String) (fuel j : Nat) (aux : Nat → Option String),
      tokens.drop j = rest → j ≤ tokens.length → rest.length < fuel →
      ∃ j1 aux1, copyLoop env tokens fuel j aux = some (j1, aux1) ∧
        (∀ k, k < j → aux1 k = aux k) ∧
        (";" ∉ rest → ∀ k, j ≤ k → k < tokens.length → aux1 k = tokens[k]?) := by
  intro rest
  induction rest with
  | nil =>
    intro fuel j aux h hj hf
    cases fuel with
    | zero => exact absurd hf (Nat.not_lt_zero _)
    | succ fuel =>
      refine ⟨j, aux, by simp [copyLoop, argAt_of_drop_nil env h hj], fun _ _ => rfl, ?_⟩
      intro _ k h1 h2
      have := congrArg List.length h
      rw [List.length_drop] at this
      simp at this
      omega
  | cons t rest ih =>
    intro fuel j aux h hj hf
    cases fuel with
    | zero => exact absurd hf (Nat.not_lt_zero _)
    | succ fuel =>
      have hlt := drop_cons_lt h
      by_cases e : t = ";"
      · refine ⟨j, aux, by simp [copyLoop, argAt_of_drop_cons env h, e], fun _ _ => rfl, ?_⟩
        intro hn; exact absurd (by simp [e]) hn
      · have hj256 : j < ARGS_AUX_SIZE := Nat.lt_trans hlt hlen
        obtain ⟨j1, aux1, h1, h2, h3⟩ :=
          ih fuel (j + 1) (Function.update aux j (some t)) (drop_cons_succ h) hlt
            (by simpa using hf)
        refine ⟨j1, aux1, by simp [copyLoop, argAt_of_drop_cons env h, e, hj256, h1], ?_, ?_⟩
        · intro k hk
          rw [h2 k (by omega), Function.update_noteq (by omega)]
        · intro hn k hk1 hk2
          have hn2 : ";" ∉ rest := fun x => hn (List.mem_cons_of_mem _ x)
          rcases Nat.eq_or_lt_of_le hk1 with heq | hgt
          · subst heq
            rw [h2 j (by omega), Function.update_same, getElem?_of_drop_cons h]
          · exact h3 hn2 k hgt hk2

theorem detectLoop_spec (env : Env) (tokens : List String) :
    ∀ (rest : List String) (fuel i : Nat),
      tokens.drop i = rest → i ≤ tokens.length → rest.length < fuel →
      ∃ b i1, detectLoop env tokens fuel i 0 = some (b, i1) ∧
        (b = true ↔ ";" ∈ rest) ∧ (b = false → i1 = tokens.length) := by
  intro rest
  induction rest with
  | nil =>
    intro fuel i h hi hf
    cases fuel with
    | zero => exact absurd hf (Nat.not_lt_zero _)
    | succ fuel =>
      refine ⟨false, i, by simp [detectLoop, argAt_of_drop_nil env h hi], by simp, ?_⟩
      intro _
      have := congrArg List.length h
      rw [List.length_drop] at this
      simp at this
      omega
  | cons t rest ih =>
    intro fuel i h hi hf
    cases fuel with
    | zero => exact absurd hf (Nat.not_lt_zero _)
    | succ fuel =>
      have hlt := drop_cons_lt h
      by_cases e : t = ";"
      · exact ⟨true, i, by simp [detectLoop, argAt_of_drop_cons env h, e], by simp [e],
          fun x => absurd x (by simp)⟩
      · obtain ⟨b, i1, h1, h2, h3⟩ :=
          ih fuel (i + 1) (drop_cons_succ h) hlt (by simpa using hf)
        have e2 : ¬ (";" = t) := fun x => e x.symm
        exact ⟨b, i1, by simp [detectLoop, argAt_of_drop_cons env h, e, h1],
          by simp [h2, e2], h3⟩

theorem cvec_spec (tokens : List String) (a : Nat → Option String)
    (ha : ∀ m, m < tokens.length → a m = tokens[m]?) (hnull : a tokens.length = none) :
    ∀ (rest : List String) (n k : Nat), tokens.drop k = rest → k ≤ tokens.length →
      rest.length < n → cvec a n k = some rest := by
  intro rest
  induction rest with
  | nil =>
    intro n k h hk hn
    cases n with
    | zero => exact absurd hn (Nat.not_lt_zero _)
    | succ n =>
      have hlen : tokens.length ≤ k := by
        have := congrArg List.length h
        rw [List.length_drop] at this
        simp at this
        omega
      have : k = tokens.length := Nat.le_antisymm hk hlen
      simp [cvec, this, hnull]
  | cons t rest ih =>
    intro n k h hk hn
    cases n with
    | zero => exact absurd hn (Nat.not_lt_zero _)
    | succ n =>
      have hlt := drop_cons_lt h
      have hak : a k = some t := by rw [ha k hlt, getElem?_of_drop_cons h]
      simp [cvec, hak, ih n (k + 1) (drop_cons_succ h) hlt (by simpa using hn)]

theorem argAt_zero (env : Env) (t : String) (ts : List String) :
    argAt env (t :: ts) 0 = some t := by
  simp [argAt]

/-- The dispatch of `commandHandler` for a vector that is not a built-in. -/
theorem commandHandler_eq (env : Env) (aux0 : Nat → Option String) (t : String)
    (ts : List String) (hlen : (t :: ts).length < ARGS_AUX_SIZE)
    (h1 : t ≠ "quit") (h2 : t ≠ "clear") (h3 : t ≠ "cd") :
    commandHandler env aux0 (t :: ts) =
      if ";" ∈ t :: ts then .returned 1 [.pipeHandler (t :: ts)]
      else .returned 1 [.launchProg (t :: ts) 0] := by
  obtain ⟨j1, aux1, hc, _, hcopy⟩ :=
    copyLoop_spec env (t :: ts) hlen (t :: ts) ((t :: ts).length + 1) 0 aux0 rfl
      (Nat.zero_le _) (Nat.lt_succ_self _)
  obtain ⟨b, i1, hd, hb, hi⟩ :=
    detectLoop_spec env (t :: ts) (t :: ts) ((t :: ts).length + 1) 0 rfl
      (Nat.zero_le _) (Nat.lt_succ_self _)
  unfold commandHandler
  simp only [hc, argAt_zero, h1, h2, h3, if_false, hd]
  cases b with
  | true =>
    have hm : ";" ∈ t :: ts := hb.mp rfl
    simp only [hm, if_true]
  | false =>
    have hm : ";" ∉ t :: ts := fun x => by
      have := hb.mpr x
      exact absurd this (by simp)
    have hi1 : i1 = (t :: ts).length := hi rfl
    subst hi1
    have hv := cvec_spec (t :: ts) (Function.update aux1 (t :: ts).length none)
      (by
        intro m hmlt
        rw [Function.update_noteq (by omega)]
        exact hcopy hm m (Nat.zero_le _) hmlt)
      (by simp) (t :: ts) ARGS_AUX_SIZE 0 rfl (Nat.zero_le _) hlen
    simp only [hm, if_false, hlen, if_true, hv]

/-! ## The pipeline engine as a whole -/

/-- Every call of `pipeHandler` returns; its rounds carry the command vectors of
`codeSplit` in order, and when every `pipe()` call of the run succeeded, round `k` has
index `k` and satisfies the guarantees of `pipeRound_facts` for
`num_cmds = delimCount tokens + 1`. -/
theorem pipeHandler_rounds (env : Env) (g : Globals) (fds : FdTable) (tokens : List String) :
    ∃ out, pipeHandler env g fds tokens = some out ∧
      out.num_cmds = delimCount tokens + 1 ∧ out.globals = g ∧
      out.stages.length ≤ delimCount tokens + 1 ∧
      out.stages.map StageRun.command <+: codeSplit tokens ∧
      (AllForksOk env → out.stages.map StageRun.command = codeSplit tokens) ∧
      (out.localPid = match out.stages.getLast? with
        | none => none
        | some st => some st.fork.toInt) ∧
      (allPipesOk out.stages = true → ∀ k st, out.stages[k]? = some st →
        st.index = k ∧ st.fork = env.forkRes k ∧
        (∀ cl ∈ st.closes, cl.fromPipes st.pipeFds (prevPipeFds out.stages k) k = true) ∧
        (∀ d ∈ st.dups, d.fromPipes st.pipeFds (prevPipeFds out.stages k) k = true) ∧
        (st.fork ≠ .failed → k ≠ delimCount tokens →
          (∃ w, (⟨some w, STDOUT_FILENO, some (.pipeWrite k)⟩ : FdCall) ∈ st.dups) ∧
          st.childFd STDOUT_FILENO = some (.pipeWrite k)) ∧
        (st.fork ≠ .failed → k ≠ 0 →
          (∃ r, (⟨some r, STDIN_FILENO, some (.pipeRead (k - 1))⟩ : FdCall) ∈ st.dups) ∧
          st.childFd STDIN_FILENO = some (.pipeRead (k - 1)))) := by
  refine ⟨_, pipeHandler_eq env g fds tokens, rfl, rfl, ?_, ?_, ?_, ?_, ?_⟩
  · exact Nat.le_trans (runStages_length_le env _ _ _ _) (codeSplit_length_le tokens)
  · exact runStages_commands_le env _ _ _ _
  · intro hf; exact runStages_commands env _ hf _ _ _
  · exact runStages_pid env _ _ _ _
  · intro hall k st hk
    obtain ⟨s1, c, hinv, _, hst, _, hprev⟩ :=
      runStages_get env (delimCount tokens + 1) (codeSplit tokens) 0 _ (slotInv_zero _)
        (by simpa using codeSplit_length_le tokens) hall k st hk
    rw [Nat.zero_add] at hinv hst hprev
    have hok : st.pipeFds.isSome = true :=
      (List.all_eq_true.mp hall) st (List.getElem?_mem hk)
    have hpp : (if k = 0 then none else prevSlot k s1) =
        prevPipeFds (runStages env (delimCount tokens + 1) 0 (codeSplit tokens)
          ⟨none, none, fds, none⟩).1 k := by
      unfold prevPipeFds
      by_cases h0 : k = 0
      · simp [h0]
      · simp only [h0, if_false]; exact hprev h0
    obtain ⟨f1, f2, f3, f4⟩ :=
      pipeRound_facts env (env.forkRes k) (delimCount tokens + 1) k c s1 hinv
        (by rw [← hst]; exact hok)
    obtain ⟨c1, c2, c3⟩ :=
      pipeRound_command env (env.forkRes k) (delimCount tokens + 1) k c s1
    rw [← hst] at f1 f2 f3 f4 c2 c3
    rw [hpp] at f1 f2
    refine ⟨c2, c3, f1, f2, ?_, ?_⟩
    · intro hfk hk2
      have := f3 (by rw [← c3]; exact hfk) (by simpa using hk2)
      exact ⟨this.1, this.2.1⟩
    · intro hfk hk0
      exact f4 (by rw [← c3]; exact hfk) hk0

/-- C1. For a token vector whose n ≥ 2 segments between ";" are all non-empty, in a run
where every fork and every `pipe()` call succeeds, `pipeHandler` runs one stage per
segment, and for every i < n - 1 the
child of stage i makes a `dup2` onto STDOUT of a descriptor that is the write end of
pipe i, while the child of stage i + 1 makes a `dup2` onto STDIN of a descriptor that is
the read end of that same pipe i; these are what their descriptors 1 and 0 refer to when
they call `execvp`, and the two descriptors are the pair that the one `pipe()` call of
stage i returned. -/
theorem pipeHandler_adjacent_stages_share_pipe (env : Env) (g : Globals) (fds : FdTable)
    (tokens : List String) (_hn : 2 ≤ (tokens.splitOn ";").length)
    (hseg : ∀ seg ∈ tokens.splitOn ";", seg ≠ []) (hf : AllForksOk env)
    (hp : pipesSucceed env g fds tokens = true) :
    ∃ out, pipeHandler env g fds tokens = some out ∧
      out.stages.map StageRun.command = tokens.splitOn ";" ∧
      ∀ i, i + 1 < (tokens.splitOn ";").length →
        ∃ a b w r, out.stages[i]? = some a ∧ out.stages[i + 1]? = some b ∧
          a.pipeFds = some (r, w) ∧
          (⟨some w, STDOUT_FILENO, some (.pipeWrite i)⟩ : FdCall) ∈ a.dups ∧
          a.childFd STDOUT_FILENO = some (.pipeWrite i) ∧
          (⟨some r, STDIN_FILENO, some (.pipeRead i)⟩ : FdCall) ∈ b.dups ∧
          b.childFd STDIN_FILENO = some (.pipeRead i) := by
  obtain ⟨out, ho, _, _, _, _, hcmd, _, hst0⟩ := pipeHandler_rounds env g fds tokens
  have hall : allPipesOk out.stages = true := by
    simpa [pipesSucceed, ho] using hp
  have hst := hst0 hall
  have hne : tokens ≠ [] := fun e => hseg [] (nil_mem_splitOn tokens (Or.inl e)) rfl
  have hlast : tokens.getLast? ≠ some ";" :=
    fun e => hseg [] (nil_mem_splitOn tokens (Or.inr e)) rfl
  have hsplit : out.stages.map StageRun.command = tokens.splitOn ";" := by
    rw [hcmd hf, codeSplit_eq_splitOn tokens hne hlast]
  have hlen : out.stages.length = delimCount tokens + 1 := by
    have := congrArg List.length hsplit
    rwa [List.length_map, splitOn_delim_length] at this
  refine ⟨out, ho, hsplit, ?_⟩
  intro i hi
  rw [splitOn_delim_length] at hi
  have hi0 : i < out.stages.length := by omega
  have hi1 : i + 1 < out.stages.length := by omega
  obtain ⟨a1, a2, _, a4, a5, _⟩ := hst i _ (List.getElem?_eq_getElem hi0)
  obtain ⟨b1, b2, _, b4, _, b6⟩ := hst (i + 1) _ (List.getElem?_eq_getElem hi1)
  obtain ⟨p, hp⟩ := hf i
  obtain ⟨q, hq⟩ := hf (i + 1)
  obtain ⟨⟨w, hw⟩, hw2⟩ := a5 (by rw [a2, hp]; simp) (by omega)
  obtain ⟨⟨r, hr⟩, hr2⟩ := b6 (by rw [b2, hq]; simp) (by omega)
  have ew : (out.stages[i]).pipeFds.map Prod.snd = some w := by
    have := a4 _ hw
    simpa [FdCall.fromPipes] using this
  have er : (out.stages[i]).pipeFds.map Prod.fst = some r := by
    have := b4 _ hr
    simp only [FdCall.fromPipes, prevPipeFds, Nat.add_sub_cancel,
      List.getElem?_eq_getElem hi0] at this
    simpa using this
  have epf : (out.stages[i]).pipeFds = some (r, w) := by
    cases hpf : (out.stages[i]).pipeFds with
    | none => rw [hpf] at ew; simp at ew
    | some pf =>
      rw [hpf] at ew er
      simp only [Option.map_some', Option.some.injEq] at ew er
      rw [← ew, ← er]
  exact ⟨_, _, w, r, List.getElem?_eq_getElem hi0, List.getElem?_eq_getElem hi1,
    epf, hw, hw2, hr, hr2⟩

/-- C1 at the three-stage line "ls ; sort ; wc -l", with descriptors 0, 1, 2 open, a
limit of 1024 and every fork succeeding. -/
theorem pipeHandler_adjacent_stages_share_pipe_witness :
    ∃ out, pipeHandler envOk globals0 stdio ["ls", ";", "sort", ";", "wc", "-l"] = some out ∧
      out.stages.map StageRun.command = ["ls", ";", "sort", ";", "wc", "-l"].splitOn ";" ∧
      ∀ i, i + 1 < (["ls", ";", "sort", ";", "wc", "-l"].splitOn ";").length →
        ∃ a b w r, out.stages[i]? = some a ∧ out.stages[i + 1]? = some b ∧
          a.pipeFds = some (r, w) ∧
          (⟨some w, STDOUT_FILENO, some (.pipeWrite i)⟩ : FdCall) ∈ a.dups ∧
          a.childFd STDOUT_FILENO = some (.pipeWrite i) ∧
          (⟨some r, STDIN_FILENO, some (.pipeRead i)⟩ : FdCall) ∈ b.dups ∧
          b.childFd STDIN_FILENO = some (.pipeRead i) :=
  pipeHandler_adjacent_stages_share_pipe envOk globals0 stdio
    ["ls", ";", "sort", ";", "wc", "-l"] (by decide) (by decide) (fun i => ⟨100 + i, rfl⟩)
    (by decide)

/-- C2 (the code departs from the claim). For the line "ls ;", and likewise for the
delimiter-free vector "ls", `pipeHandler` forks a single stage; that stage is therefore
the last one forked, yet its child makes a `dup2` onto STDOUT: its standard output is the
write end of pipe 0, which no process reads. Its standard input is left alone. -/
theorem pipeHandler_lone_stage_redirects_stdout :
    (pipeHandler envOk globals0 stdio ["ls", ";"]).map
        (fun o => o.stages.map (fun st => (st.command, st.redirects STDIN_FILENO,
          st.childFd STDIN_FILENO, st.redirects STDOUT_FILENO, st.childFd STDOUT_FILENO))) =
      some [(["ls"], false, some (.inherited 0), true, some (.pipeWrite 0))] ∧
    (pipeHandler envOk globals0 stdio ["ls"]).map
        (fun o => o.stages.map (fun st => (st.command, st.redirects STDIN_FILENO,
          st.childFd STDIN_FILENO, st.redirects STDOUT_FILENO, st.childFd STDOUT_FILENO))) =
      some [(["ls"], false, some (.inherited 0), true, some (.pipeWrite 0))] := by
  constructor <;> rfl

/-- C3 (the code departs from the claim). With every fork succeeding and the shell
holding descriptors 0, 1, 2 at entry, pipelines of 1, 2, 3 and 4 stages all leave the
shell with more open descriptors than before: the read end of the only pipe for one
stage, both ends of the pipe opened in the last round otherwise. -/
theorem pipeHandler_leaves_descriptors_open :
    stdio.openFds = [0, 1, 2] ∧
    (pipeHandler envOk globals0 stdio ["a"]).map (fun o => o.fds.openFds) =
      some [0, 1, 2, 3] ∧
    (pipeHandler envOk globals0 stdio ["a", ";", "b"]).map (fun o => o.fds.openFds) =
      some [0, 1, 2, 4, 5] ∧
    (pipeHandler envOk globals0 stdio ["a", ";", "b", ";", "c"]).map
        (fun o => o.fds.openFds) = some [0, 1, 2, 3, 5] ∧
    (pipeHandler envOk globals0 stdio ["a", ";", "b", ";", "c", ";", "d"]).map
        (fun o => o.fds.openFds) = some [0, 1, 2, 4, 5] ∧
    (pipeHandler envOk globals0 stdio ["a", ";", "b"]).map
        (fun o => (o.fds.lookup 4, o.fds.lookup 5)) =
      some (some (.pipeRead 1), some (.pipeWrite 1)) := by
  refine ⟨by decide, by decide, by decide, by decide, by decide, by decide⟩

/-- C4, counterexample. Starting from the globals of `main` (`pid = -10`), the pipeline
"ls ; wc" forks children 100 and 101, and at return the global `pid` is still -10, not
the id 101 of the last stage; the interrupt handler would signal -10. -/
theorem pipeHandler_global_pid_not_last_stage :
    ∃ out, pipeHandler envOk globals0 stdio ["ls", ";", "wc"] = some out ∧
      out.stages.map StageRun.fork = [.child 100, .child 101] ∧
      out.globals.pid = -10 ∧ out.globals.pid ≠ 101 ∧
      (signalHandler_int (fun _ => -1) out.globals).2.head? = some (.kill (-10) SIGTERM) :=
  ⟨_, rfl, by decide, by decide, by decide, by decide⟩

/-- C4, as amended. `pipeHandler` never writes the global `pid`: the globals at return
are those at entry, and the id of the last stage forked is held only by the local `pid`
of the function. `launchProg`, in contrast, leaves in the global `pid` the value its
`fork()` returned (the id of its child). -/
theorem pipeHandler_keeps_global_pid (env : Env) (g : Globals) (fds : FdTable)
    (tokens : List String) :
    (∃ out, pipeHandler env g fds tokens = some out ∧ out.globals = g ∧
      out.localPid = match out.stages.getLast? with
        | none => none
        | some st => some st.fork.toInt) ∧
    ∀ (fr : ForkResult) (p : Proc) (cwd : String) (args : List String) (background : Int),
      (launchProg fr p cwd g args background).globals.pid = fr.toInt := by
  obtain ⟨out, ho, _, hg, _, _, _, hp, _⟩ := pipeHandler_rounds env g fds tokens
  refine ⟨⟨out, ho, hg, hp⟩, ?_⟩
  intro fr p cwd args background
  cases fr with
  | failed => rfl
  | child q =>
    simp only [launchProg]
    split <;> rfl

/-- C5, counterexample. The child that `launchProg` forks for "ls" in the foreground,
from a shell that catches SIGINT, calls `execvp` with SIGINT ignored, not with the
default disposition. -/
theorem launchProg_child_sigint_not_default :
    ∃ c, (launchProg (.child 7) shellProc "/home" globals0 ["ls"] 0).child = some c ∧
      c.proc.sigint = .ignore ∧ c.proc.sigint ≠ .default :=
  ⟨_, rfl, by decide, by decide⟩

/-- C5, as amended. In `launchProg`, for every argument vector and either value of the
background flag, the child calls `execvp` with SIGINT set to be ignored (`SIG_IGN`), as
line 123 sets it: neither the handler of the interpreter nor the default. -/
theorem launchProg_child_ignores_sigint (pid : Nat) (p : Proc) (cwd : String) (g : Globals)
    (args : List String) (background : Int) :
    ∃ c, (launchProg (.child pid) p cwd g args background).child = some c ∧
      c.proc.sigint = .ignore ∧ c.argv = args := by
  simp only [launchProg]
  split <;> exact ⟨_, rfl, rfl, rfl⟩

/-- C6. `signalHandler_int` sends SIGTERM to the global `pid`; it assigns
`no_reprint_prmpt = 1` exactly when that `kill` returns 0; when it does not, the globals
(flag and `pid`) are left as they were. The handler returns for every prior state, and
never changes `pid`. -/
theorem signalHandler_int_sets_flag_iff_kill_ok (kill : Int → Int) (g : Globals) :
    (signalHandler_int kill g).2.head? = some (.kill g.pid SIGTERM) ∧
    (HandlerAct.set_no_reprint_prmpt 1 ∈ (signalHandler_int kill g).2 ↔ kill g.pid = 0) ∧
    (signalHandler_int kill g).1 =
      (if kill g.pid = 0 then { g with no_reprint_prmpt := 1 } else g) ∧
    (signalHandler_int kill g).1.pid = g.pid := by
  unfold signalHandler_int
  by_cases h : kill g.pid = 0 <;> simp [h]

/-- C7. For a non-empty token vector that fits the 256-entry arrays of the program and
whose first token is none of quit, clear, cd: when it contains ";", `commandHandler`
makes exactly one call, `pipeHandler` with the whole vector; when it does not, it makes
exactly one call, `launchProg` with a null-terminated vector equal to the original and
background flag 0. In both cases it returns 1. -/
theorem commandHandler_routes (env : Env) (aux0 : Nat → Option String)
    (tokens : List String) (hne : tokens ≠ []) (hlen : tokens.length < ARGS_AUX_SIZE)
    (hq : tokens.head? ≠ some "quit") (hc : tokens.head? ≠ some "clear")
    (hd : tokens.head? ≠ some "cd") :
    commandHandler env aux0 tokens =
      if ";" ∈ tokens then .returned 1 [.pipeHandler tokens]
      else .returned 1 [.launchProg tokens 0] := by
  cases tokens with
  | nil => exact absurd rfl hne
  | cons t ts =>
    exact commandHandler_eq env aux0 t ts hlen (fun e => hq (by simp [e]))
      (fun e => hc (by simp [e])) (fun e => hd (by simp [e]))

/-- C7 at the lines "ls ; wc" and "ls -l", with stale entries in `args_aux`. -/
theorem commandHandler_routes_witness :
    commandHandler envOk (fun _ => some "old") ["ls", ";", "wc"] =
        .returned 1 [.pipeHandler ["ls", ";", "wc"]] ∧
    commandHandler envOk (fun _ => some "old") ["ls", "-l"] =
        .returned 1 [.launchProg ["ls", "-l"] 0] :=
  ⟨commandHandler_routes envOk (fun _ => some "old") ["ls", ";", "wc"]
      (by decide) (by decide) (by decide) (by decide) (by decide),
    commandHandler_routes envOk (fun _ => some "old") ["ls", "-l"]
      (by decide) (by decide) (by decide) (by decide) (by decide)⟩

/-- C8, counterexample. For the line "ls ;" (every fork succeeding) `pipeHandler` forks
the single stage "ls", while splitting on ";" gives two slices and `num_cmds` is 2. -/
theorem pipeHandler_trailing_delim_not_split :
    ∃ out, pipeHandler envOk globals0 stdio ["ls", ";"] = some out ∧
      out.stages.map StageRun.command = [["ls"]] ∧
      ["ls", ";"].splitOn ";" = [["ls"], []] ∧
      out.stages.map StageRun.command ≠ ["ls", ";"].splitOn ";" ∧
      out.num_cmds = 2 ∧ out.stages.length ≠ out.num_cmds :=
  ⟨_, rfl, by decide, by decide, by decide, by decide, by decide⟩

/-- C8, as amended. With every fork succeeding: `num_cmds` is the number of ";" tokens
plus one; for a non-empty token vector whose last token is not ";" the stages forked are
exactly the slices obtained by splitting on ";", in order, and their number is
`num_cmds`; for a vector that is empty or ends in ";" the stages forked are those slices
without the last (empty) one. -/
theorem pipeHandler_stages_are_split (env : Env) (g : Globals) (fds : FdTable)
    (tokens : List String) (hf : AllForksOk env) :
    ∃ out, pipeHandler env g fds tokens = some out ∧
      out.num_cmds = delimCount tokens + 1 ∧
      (tokens ≠ [] ∧ tokens.getLast? ≠ some ";" →
        out.stages.map StageRun.command = tokens.splitOn ";" ∧
        out.stages.length = out.num_cmds) ∧
      (tokens = [] ∨ tokens.getLast? = some ";" →
        out.stages.map StageRun.command = (tokens.splitOn ";").dropLast) := by
  obtain ⟨out, ho, hnum, _, _, _, hcmd, _, _⟩ := pipeHandler_rounds env g fds tokens
  refine ⟨out, ho, hnum, ?_, ?_⟩
  · intro h
    have hsplit : out.stages.map StageRun.command = tokens.splitOn ";" := by
      rw [hcmd hf, codeSplit_eq_splitOn tokens h.1 h.2]
    refine ⟨hsplit, ?_⟩
    have := congrArg List.length hsplit
    rw [List.length_map, splitOn_delim_length] at this
    rw [this, hnum]
  · intro h
    rw [hcmd hf]
    rcases h with h | h
    · subst h; simp [codeSplit, List.splitOn]
    · obtain ⟨pre, hp⟩ := List.getLast?_eq_some_iff.mp h
      rw [hp, codeSplit_append_delim, splitOn_append_delim]
      simp

/-- C8 as amended, at the line "ls -l ; wc". -/
theorem pipeHandler_stages_are_split_witness :
    ∃ out, pipeHandler envOk globals0 stdio ["ls", "-l", ";", "wc"] = some out ∧
      out.num_cmds = 2 ∧ out.stages.map StageRun.command = [["ls", "-l"], ["wc"]] ∧
      out.stages.length = out.num_cmds := by
  obtain ⟨out, ho, hnum, h1, _⟩ :=
    pipeHandler_stages_are_split envOk globals0 stdio ["ls", "-l", ";", "wc"]
      (fun i => ⟨100 + i, rfl⟩)
  have h := h1 ⟨by decide, by decide⟩
  exact ⟨out, ho, hnum, by rw [h.1]; decide, h.2⟩

/-- C9. For every token vector `pre ++ [";"]`, whose last token is the delimiter,
`pipeHandler` returns having forked at most as many stages as there are ";" tokens, so
none at the position behind the trailing ";"; the command vectors of the stages it
reached are the leading slices of `pre` split on ";", and when every fork succeeds they
are exactly the slices of `pre`: the loop ends after the stage before the trailing
";". -/
theorem pipeHandler_no_stage_after_trailing_delim (env : Env) (g : Globals)
    (fds : FdTable) (pre : List String) :
    ∃ out, pipeHandler env g fds (pre ++ [";"]) = some out ∧
      out.num_cmds = delimCount (pre ++ [";"]) + 1 ∧
      out.stages.length ≤ delimCount (pre ++ [";"]) ∧
      out.stages.map StageRun.command <+: pre.splitOn ";" ∧
      (AllForksOk env → out.stages.map StageRun.command = pre.splitOn ";") := by
  obtain ⟨out, ho, hnum, _, _, hpre, hcmd, _, _⟩ :=
    pipeHandler_rounds env g fds (pre ++ [";"])
  rw [codeSplit_append_delim] at hpre hcmd
  refine ⟨out, ho, hnum, ?_, hpre, hcmd⟩
  obtain ⟨rest, hrest⟩ := hpre
  have := congrArg List.length hrest
  rw [List.length_append, List.length_map, splitOn_delim_length] at this
  rw [delimCount_append_delim]
  omega

/-- C9 at the line "ls ; wc ;", every fork succeeding. -/
theorem pipeHandler_no_stage_after_trailing_delim_witness :
    ∃ out, pipeHandler envOk globals0 stdio (["ls", ";", "wc"] ++ [";"]) = some out ∧
      out.stages.length ≤ 2 ∧ out.stages.map StageRun.command = [["ls"], ["wc"]] := by
  obtain ⟨out, ho, _, hlen, _, hcmd⟩ :=
    pipeHandler_no_stage_after_trailing_delim envOk globals0 stdio ["ls", ";", "wc"]
  exact ⟨out, ho, hlen, by rw [hcmd (fun i => ⟨100 + i, rfl⟩)]; decide⟩

/-- When every `pipe()` call of the run succeeds, whatever the token vector, the
descriptor table at entry and the outcome of the forks: in every round `k` that
`pipeHandler` reaches, each `dup2` call of the child and each `close` call of the parent
(the one before the `return` after a failed fork included) passes a descriptor that the
`pipe()` call of round `k` or of round `k - 1` returned, and at that moment the descriptor
is open in the calling process and still refers to the matching end of that pipe. -/
theorem pipeHandler_calls_valid_of_pipes (env : Env) (g : Globals) (fds : FdTable)
    (tokens : List String) (hp : pipesSucceed env g fds tokens = true) :
    ∃ out, pipeHandler env g fds tokens = some out ∧
      ∀ (k : Nat) (st : StageRun), out.stages[k]? = some st →
        st.index = k ∧
        (∀ d ∈ st.dups, d.fromPipes st.pipeFds (prevPipeFds out.stages k) k = true) ∧
        (∀ cl ∈ st.closes, cl.fromPipes st.pipeFds (prevPipeFds out.stages k) k = true) := by
  obtain ⟨out, ho, _, _, _, _, _, _, hst⟩ := pipeHandler_rounds env g fds tokens
  have hall : allPipesOk out.stages = true := by
    simpa [pipesSucceed, ho] using hp
  refine ⟨out, ho, ?_⟩
  intro k st hk
  obtain ⟨h1, _, h3, h4, _, _⟩ := hst hall k st hk
  exact ⟨h1, h4, h3⟩

/-- C10 (the code departs from the claim). A shell with descriptors 0, 1, 2 open and a
descriptor limit of 4 runs "a ; b": both `pipe()` calls fail, the code does not look at
their return value, and in both rounds the child passes to `dup2` and the parent passes
to `close` the contents of a slot that no `pipe()` call has filled: no call uses a
descriptor returned by `pipe()`. With a limit of 5 and "a ; b ; c" the first `pipe()`
succeeds and the second fails: the child of round 1 redirects its input from pipe 0 but
its `dup2` onto STDOUT reads the unfilled `filedes`, and so does the `dup2` onto STDIN
of round 2. -/
theorem pipeHandler_failed_pipe_uses_unfilled_slot :
    (pipeHandler envTight globals0 stdio ["a", ";", "b"]).map
        (fun o => o.stages.map (fun st => (st.pipeFds, st.dups, st.closes))) =
      some [(none, [⟨none, STDOUT_FILENO, none⟩], [⟨none, 0, none⟩]),
            (none, [⟨none, STDIN_FILENO, none⟩], [⟨none, 0, none⟩])] ∧
    (pipeHandler envTight globals0 stdio ["a", ";", "b"]).map
        (fun o => o.stages.map (fun st => (st.dups ++ st.closes).all
          (fun c => c.fromPipes st.pipeFds (prevPipeFds o.stages st.index) st.index))) =
      some [false, false] ∧
    (pipeHandler { envOk with nofile := 5 } globals0 stdio ["a", ";", "b", ";", "c"]).map
        (fun o => o.stages.map (fun st => (st.pipeFds, st.dups))) =
      some [(some (3, 4), [⟨some 4, STDOUT_FILENO, some (.pipeWrite 0)⟩]),
            (none, [⟨some 3, STDIN_FILENO, some (.pipeRead 0)⟩, ⟨none, STDOUT_FILENO, none⟩]),
            (some (3, 4), [⟨none, STDIN_FILENO, none⟩])] := by
  refine ⟨by rfl, by rfl, by rfl⟩

end SimpleShell
